import Mathlib

/-!
Verification of the fab source-tree analysis engine.

This file gives a shallow embedding, in Lean 4, of the parts of the
repository that the specification's claims are about:

* `fab/source_tree.py` : `TreeDescent.descend` and `SourceVisitor.visit`
  (tree walking and ordered-rule dispatch);
* `fab/tasks/__init__.py` : `TextModifier.products`;
* `fab/tasks/c.py` : the symbol identity classes (`CSymbolUnresolvedID`,
  `CSymbolID`), the SQLite-backed working state (`CWorkingState`:
  `remove_c_file`, `get_symbol`, `depends_on`), the pragma injector
  (`CPragmaInjector.line_by_line`), the marker-recovery window of
  `CAnalyser.run`, and `CPreProcessor.output`.

Python machine data is embedded as plain Lean data: `pathlib.Path`
values become lists of components, SQLite tables become lists of row
records, the SQL statements executed against them are embedded as the
corresponding relational operations (filter / left join / sort by the
ORDER BY key), generators become lists, and raised exceptions become
`Except` errors.
-/

namespace Fab

/-! ## String ordering helpers

SQLite ORDER BY over text columns and Python `sorted` over paths both
compare strings lexicographically by code point.  We embed that order
as an executable Boolean relation on `List Char` / `String`. -/

def charLe (a b : Char) : Bool := a.toNat ≤ b.toNat

def clLe : List Char → List Char → Bool
  | [], _ => true
  | _ :: _, [] => false
  | a :: as, b :: bs => if a = b then clLe as bs else charLe a b

def strLe (a b : String) : Bool := clLe a.data b.data

theorem clLe_refl (a : List Char) : clLe a a = true := by
  induction a with
  | nil => rfl
  | cons x xs ih => simp [clLe, ih]

theorem clLe_total (a b : List Char) : clLe a b = true ∨ clLe b a = true := by
  induction a generalizing b with
  | nil => left; rfl
  | cons x xs ih =>
    cases b with
    | nil => right; rfl
    | cons y ys =>
      by_cases hxy : x = y
      · subst hxy; simpa [clLe] using ih ys
      · simp only [clLe, if_neg hxy, if_neg (Ne.symm hxy)]
        rcases Nat.le_total x.toNat y.toNat with h | h <;> simp [charLe, h]

theorem clLe_antisymm (a b : List Char) (hab : clLe a b = true)
    (hba : clLe b a = true) : a = b := by
  induction a generalizing b with
  | nil =>
    cases b with
    | nil => rfl
    | cons y ys => simp [clLe] at hba
  | cons x xs ih =>
    cases b with
    | nil => simp [clLe] at hab
    | cons y ys =>
      by_cases hxy : x = y
      · subst hxy
        simp only [clLe, if_pos rfl] at hab hba
        exact congrArg (x :: ·) (ih ys hab hba)
      · simp only [clLe, if_neg hxy, if_neg (Ne.symm hxy), charLe,
          decide_eq_true_eq] at hab hba
        exact absurd (Char.ext (UInt32.ext (Nat.le_antisymm hab hba))) hxy

theorem clLe_trans (a b c : List Char) (hab : clLe a b = true)
    (hbc : clLe b c = true) : clLe a c = true := by
  induction a generalizing b c with
  | nil => rfl
  | cons x xs ih =>
    cases b with
    | nil => simp [clLe] at hab
    | cons y ys =>
      cases c with
      | nil => simp [clLe] at hbc
      | cons z zs =>
        by_cases hxy : x = y
        · subst hxy
          simp only [clLe, if_pos rfl] at hab
          by_cases hyz : x = z
          · subst hyz
            simp only [clLe, if_pos rfl] at hbc ⊢
            exact ih ys zs hab hbc
          · simp only [clLe, if_neg hyz] at hbc ⊢
            exact hbc
        · simp only [clLe, if_neg hxy] at hab
          by_cases hyz : y = z
          · subst hyz
            simp only [clLe, if_neg hxy]
            exact hab
          · simp only [clLe, if_neg hyz] at hbc
            by_cases hxz : x = z
            · subst hxz
              simp only [charLe, decide_eq_true_eq] at hab hbc
              exact absurd (Char.ext (UInt32.ext
                (Nat.le_antisymm hbc hab))) hyz
            · simp only [clLe, if_neg hxz]
              simp only [charLe, decide_eq_true_eq] at hab hbc ⊢
              exact Nat.le_trans hab hbc

theorem strLe_total (a b : String) : strLe a b = true ∨ strLe b a = true :=
  clLe_total a.data b.data

theorem strLe_antisymm {a b : String} (hab : strLe a b = true)
    (hba : strLe b a = true) : a = b := by
  cases a; cases b
  exact congrArg String.mk (clLe_antisymm _ _ hab hba)

theorem strLe_trans {a b c : String} (hab : strLe a b = true)
    (hbc : strLe b c = true) : strLe a c = true :=
  clLe_trans a.data b.data c.data hab hbc

/-! ## Paths

A `pathlib.Path` is embedded as its list of components.  The only path
operations the claims need are `name` (final component), `with_suffix`
(replace the extension of the final component) and the `/` operator
(append one component). -/

structure PyPath where
  parts : List String
deriving DecidableEq, Repr

/-- Python `Path.name`: the final path component (empty for an empty path). -/
def PyPath.name (p : PyPath) : String := p.parts.getLast?.getD ""

/-- Python `Path.__truediv__`: `p / s` appends one component. -/
def PyPath.child (p : PyPath) (s : String) : PyPath := ⟨p.parts ++ [s]⟩

/-- Index of the last occurrence of `'.'`, or `none` (`str.rfind`). -/
def lastDotIdx : List Char → Option Nat
  | [] => none
  | c :: cs =>
    match lastDotIdx cs with
    | some i => some (i + 1)
    | none => if c = '.' then some 0 else none

/-- Python `PurePath.suffix` of a single component: everything from the last
dot, provided that dot is neither the first nor the last character. -/
def nameSuffix (name : String) : String :=
  match lastDotIdx name.data with
  | none => ""
  | some i =>
    if 0 < i ∧ i < name.data.length - 1 then ⟨name.data.drop i⟩ else ""

/-- Python `PurePath.with_suffix` acting on a single component: strip the old
suffix and append the new one. -/
def nameWithSuffix (name : String) (suffix : String) : String :=
  ⟨name.data.take (name.data.length - (nameSuffix name).data.length)⟩ ++ suffix

/-- Python `Path.with_suffix`: rewrite the final component. -/
def PyPath.with_suffix (p : PyPath) (suffix : String) : PyPath :=
  ⟨p.parts.dropLast ++ [nameWithSuffix p.name suffix]⟩

/-! ## Symbol identity classes (`fab/tasks/c.py`, `CSymbolUnresolvedID`
and `CSymbolID`)

`CSymbolID` subclasses `CSymbolUnresolvedID`, so `isinstance(x,
CSymbolUnresolvedID)` also accepts a `CSymbolID`.  A Python object
offered to `__eq__` is embedded as a `PyObj`; objects of any unrelated
class are the `other` constructor.  A raised `TypeError` is an
`Except.error`. -/

inductive PyObj where
  /-- an instance of exactly `CSymbolUnresolvedID` -/
  | unresolvedID (name : String)
  /-- an instance of `CSymbolID` (subclass of `CSymbolUnresolvedID`) -/
  | resolvedID (name : String) (found_in : PyPath)
  /-- an instance of any class unrelated to the symbol identities -/
  | other (className : String)
deriving DecidableEq, Repr

def PyObj.isinstanceUnresolvedID : PyObj → Bool
  | .unresolvedID _ => true
  | .resolvedID _ _ => true
  | .other _ => false

def PyObj.isinstanceResolvedID : PyObj → Bool
  | .resolvedID _ _ => true
  | _ => false

/-- the `.name` attribute (only read after an isinstance check). -/
def PyObj.attrName : PyObj → String
  | .unresolvedID n => n
  | .resolvedID n _ => n
  | .other _ => ""

/-- the `.found_in` attribute (only read after an isinstance check). -/
def PyObj.attrFoundIn : PyObj → PyPath
  | .resolvedID _ f => f
  | _ => ⟨[]⟩

def PyObj.className : PyObj → String
  | .unresolvedID _ => "CSymbolUnresolvedID"
  | .resolvedID _ _ => "CSymbolID"
  | .other c => c

/-- Method `CSymbolUnresolvedID.__eq__(self, other)`. -/
def CSymbolUnresolvedID.eq (selfName : String) (other : PyObj) :
    Except String Bool :=
  if other.isinstanceUnresolvedID then
    .ok (other.attrName == selfName)
  else
    .error ("Cannot compare CSymbolUnresolvedID with " ++ other.className)

/-- Method `CSymbolID.__eq__(self, other)`: isinstance check, then
`super().__eq__(other) and other.found_in == self.found_in`. -/
def CSymbolID.eq (selfName : String) (selfFoundIn : PyPath)
    (other : PyObj) : Except String Bool :=
  if other.isinstanceResolvedID then
    match CSymbolUnresolvedID.eq selfName other with
    | .error e => .error e
    | .ok b => .ok (b && (other.attrFoundIn == selfFoundIn))
  else
    .error ("Cannot compare CSymbolID with " ++ other.className)

/-- C9: comparing a `CSymbolID` to a `CSymbolUnresolvedID` raises
`TypeError`; comparing a `CSymbolUnresolvedID` to a `CSymbolID`
succeeds and compares by name only; comparing either identity to an
object of an incompatible class raises `TypeError` instead of
returning `False`. -/
theorem csymbol_eq_asymmetric (n m : String) (f g : PyPath) (c : String) :
    (∃ e, CSymbolID.eq n f (.unresolvedID m) = .error e)
    ∧ CSymbolUnresolvedID.eq n (.resolvedID m g) = .ok (m == n)
    ∧ (∃ e, CSymbolUnresolvedID.eq n (.other c) = .error e)
    ∧ (∃ e, CSymbolID.eq n f (.other c) = .error e) := by
  refine ⟨⟨_, rfl⟩, rfl, ⟨_, rfl⟩, ⟨_, rfl⟩⟩

/-! ## `TextModifier.products` and `CPreProcessor.output`

`TextModifier.products` (`fab/tasks/__init__.py`) builds its single
product path from the workspace directory and *only the base name* of
the input file, after the handler's extension substitution.  A reader
whose `filename` is not a `Path` (synthetic input) yields no products;
this is embedded as an `Option PyPath` input. -/

/-- Property `TextModifier.products`. -/
def TextModifier.products (workspace : PyPath) (filename : Option PyPath)
    (extension : String) : List PyPath :=
  match filename with
  | some input_file =>
      [workspace.child (input_file.with_suffix extension).name]
  | none => []

/-- Method `TextModifier.run` writes every line to `self.products[0]`: the
path the task overwrites. -/
def TextModifier.runTarget (workspace : PyPath) (filename : Option PyPath)
    (extension : String) : Option PyPath :=
  (TextModifier.products workspace filename extension).head?

/-- Property `CPreProcessor.output` (`fab/tasks/c.py`). -/
def CPreProcessor.output (workspace : PyPath) (filename : PyPath) :
    List PyPath :=
  [workspace.child (filename.with_suffix ".c-fab-pp").name]

theorem withSuffix_name_eq (p q : PyPath) (ext : String)
    (h : p.name = q.name) :
    (p.with_suffix ext).name = (q.with_suffix ext).name := by
  show (⟨p.parts.dropLast ++ [nameWithSuffix p.name ext]⟩ : PyPath).name
      = (⟨q.parts.dropLast ++ [nameWithSuffix q.name ext]⟩ : PyPath).name
  rw [h]
  simp only [PyPath.name, List.getLast?_concat, Option.getD_some]

/-- C10: the product path of a file-backed `TextModifier` (and of
`CPreProcessor.output`) is the workspace directory plus just the base
name of the input (with the extension substituted), so two distinct
inputs sharing a base name map to the identical product path, and the
write target (`products[0]`) of the later task is the same path the
earlier task wrote. -/
theorem textmodifier_products_name_collision
    (workspace : PyPath) (ext : String) (p q : PyPath)
    (hname : p.name = q.name) :
    TextModifier.products workspace (some p) ext
      = [workspace.child (p.with_suffix ext).name]
    ∧ TextModifier.products workspace (some p) ext
      = TextModifier.products workspace (some q) ext
    ∧ TextModifier.runTarget workspace (some p) ext
      = TextModifier.runTarget workspace (some q) ext
    ∧ CPreProcessor.output workspace p = CPreProcessor.output workspace q := by
  refine ⟨rfl, ?_, ?_, ?_⟩
  · simp [TextModifier.products, withSuffix_name_eq p q ext hname]
  · simp [TextModifier.runTarget, TextModifier.products,
      withSuffix_name_eq p q ext hname]
  · simp [CPreProcessor.output, withSuffix_name_eq p q ".c-fab-pp" hname]

/-- C10 witness: `/a/dir1/util.c` and `/b/dir2/util.c` are distinct
files whose products under workspace `/ws` coincide. -/
theorem textmodifier_products_name_collision_witness :
    (⟨["", "a", "dir1", "util.c"]⟩ : PyPath) ≠ ⟨["", "b", "dir2", "util.c"]⟩
    ∧ TextModifier.products ⟨["", "ws"]⟩ (some ⟨["", "a", "dir1", "util.c"]⟩)
        ".c-fab-marked"
      = TextModifier.products ⟨["", "ws"]⟩ (some ⟨["", "b", "dir2", "util.c"]⟩)
        ".c-fab-marked" :=
  ⟨by decide,
   (textmodifier_products_name_collision ⟨["", "ws"]⟩ ".c-fab-marked"
      ⟨["", "a", "dir1", "util.c"]⟩ ⟨["", "b", "dir2", "util.c"]⟩
      (by decide)).2.1⟩

/-! ## The symbol dependency store (`CWorkingState`)

The two SQLite tables created by `CWorkingState.__init__` become two
lists of row records; each SQL statement of the class becomes the
corresponding relational operation on them. -/

/-- One row of the `c_symbol` table. -/
structure SymbolRow where
  symbol : String
  found_in : String
deriving DecidableEq, Repr

/-- One row of the `c_prerequisite` table. -/
structure PrereqRow where
  symbol : String
  found_in : String
  prerequisite : String
deriving DecidableEq, Repr

/-- The observable state of a `CWorkingState` database. -/
structure CWorkingState where
  c_symbol : List SymbolRow
  c_prerequisite : List PrereqRow
deriving DecidableEq, Repr

/-- Method `CWorkingState.add_c_symbol`: one INSERT into `c_symbol`. -/
def CWorkingState.add_c_symbol (s : CWorkingState) (symbol : String)
    (filename : String) : CWorkingState :=
  { s with c_symbol := s.c_symbol ++ [⟨symbol, filename⟩] }

/-- Method `CWorkingState.add_c_dependency`: one INSERT into `c_prerequisite`. -/
def CWorkingState.add_c_dependency (s : CWorkingState) (symbol : String)
    (found_in : String) (depends_on : String) : CWorkingState :=
  { s with c_prerequisite := s.c_prerequisite ++ [⟨symbol, found_in, depends_on⟩] }

/-- Method `CWorkingState.remove_c_file`: DELETE from `c_prerequisite` where
`found_in = filename`, then DELETE from `c_symbol` where
`found_in = filename` (in that statement order). -/
def CWorkingState.remove_c_file (s : CWorkingState) (filename : String) :
    CWorkingState :=
  let s1 : CWorkingState :=
    { s with c_prerequisite :=
        s.c_prerequisite.filter (fun r => r.found_in ≠ filename) }
  { s1 with c_symbol :=
      s1.c_symbol.filter (fun r => r.found_in ≠ filename) }

/-- No definition row and no prerequisite row mention file `f`. -/
def CWorkingState.noRecordsFor (s : CWorkingState) (f : String) : Prop :=
  (∀ r ∈ s.c_symbol, r.found_in ≠ f) ∧ (∀ r ∈ s.c_prerequisite, r.found_in ≠ f)

instance (s : CWorkingState) (f : String) :
    Decidable (s.noRecordsFor f) := by
  unfold CWorkingState.noRecordsFor; infer_instance

/-- C5: `remove_c_file f` keeps exactly the definition rows and the
prerequisite rows not associated with `f` (so every row for `f`, in
both tables, is deleted and nothing else is), leaves no records for
`f`, is idempotent, and is a no-op on a store holding no records for
`f`; being a total function, it raises no error in any of these
cases. -/
theorem remove_c_file_idempotent (s : CWorkingState) (f : String) :
    (∀ r, r ∈ (s.remove_c_file f).c_symbol ↔ r ∈ s.c_symbol ∧ r.found_in ≠ f)
    ∧ (∀ r, r ∈ (s.remove_c_file f).c_prerequisite
        ↔ r ∈ s.c_prerequisite ∧ r.found_in ≠ f)
    ∧ (s.remove_c_file f).noRecordsFor f
    ∧ (s.remove_c_file f).remove_c_file f = s.remove_c_file f
    ∧ (s.noRecordsFor f → s.remove_c_file f = s) := by
  refine ⟨?_, ?_, ?_, ?_, ?_⟩
  · intro r
    simp [CWorkingState.remove_c_file, List.mem_filter]
  · intro r
    simp [CWorkingState.remove_c_file, List.mem_filter]
  · constructor
    · intro r hr
      simp only [CWorkingState.remove_c_file, List.mem_filter,
        decide_eq_true_eq] at hr
      exact hr.2
    · intro r hr
      simp only [CWorkingState.remove_c_file, List.mem_filter,
        decide_eq_true_eq] at hr
      exact hr.2
  · simp only [CWorkingState.remove_c_file]
    congr 1 <;> rw [List.filter_filter] <;>
      simp
  · intro ⟨h1, h2⟩
    simp only [CWorkingState.remove_c_file]
    have e1 : s.c_prerequisite.filter (fun r => r.found_in ≠ f)
        = s.c_prerequisite :=
      List.filter_eq_self.mpr (fun r hr => by simpa using h2 r hr)
    have e2 : s.c_symbol.filter (fun r => r.found_in ≠ f) = s.c_symbol :=
      List.filter_eq_self.mpr (fun r hr => by simpa using h1 r hr)
    cases s
    simp_all

/-- A concrete store holding records for `a.c` and `b.c`. -/
def sampleStoreAB : CWorkingState :=
  ⟨[⟨"f", "a.c"⟩, ⟨"g", "b.c"⟩], [⟨"f", "a.c", "g"⟩]⟩

/-- A concrete store holding no records for `a.c`. -/
def sampleStoreB : CWorkingState := ⟨[⟨"g", "b.c"⟩], []⟩

/-- C5 witness: concrete stores with and without records for `a.c`. -/
theorem remove_c_file_idempotent_witness :
    (sampleStoreAB.remove_c_file "a.c").remove_c_file "a.c"
      = sampleStoreAB.remove_c_file "a.c"
    ∧ sampleStoreB.noRecordsFor "a.c"
    ∧ sampleStoreB.remove_c_file "a.c" = sampleStoreB :=
  ⟨(remove_c_file_idempotent sampleStoreAB "a.c").2.2.2.1,
   by decide,
   (remove_c_file_idempotent sampleStoreB "a.c").2.2.2.2 (by decide)⟩

/-! ## The dispatcher (`fab/source_tree.py`, `SourceVisitor.visit`)

`visit` scans the whole ordered `source_map`, remembering the class of
every rule whose pattern `re.match`es the candidate, so the last match
wins; with no match it returns the empty candidate list.

The rule patterns of the claim are of the restricted regex shape
`.*suffix$`.  We embed the fragment of Python `re` needed for them: a
pattern is a token list over `.*`, a literal run, and `$`; `re.match`
anchors at the start of the string and accepts any prefix match, `.`
matches anything except a newline, and `$` matches at the end or just
before a final newline. -/

inductive ReTok where
  | dotStar
  | lit (cs : List Char)
  | endAnchor
deriving DecidableEq, Repr

def reMatchL : List ReTok → List Char → Bool
  | [], _ => true
  | .lit l :: ps, cs => l.isPrefixOf cs && reMatchL ps (cs.drop l.length)
  | .dotStar :: ps, cs =>
      (List.range (cs.length + 1)).any
        (fun k => (cs.take k).all (· ≠ '\n') && reMatchL ps (cs.drop k))
  | .endAnchor :: ps, cs => (cs.isEmpty || cs == ['\n']) && reMatchL ps cs

/-- Python `re.match(pattern, s)` viewed as a Boolean. -/
def reMatch (p : List ReTok) (s : String) : Bool := reMatchL p s.data

/-- The pattern `.*\.c$`. -/
def patAnyC : List ReTok := [.dotStar, .lit ".c".data, .endAnchor]

/-- The pattern `.*special\.c$`. -/
def patSpecialC : List ReTok := [.dotStar, .lit "special.c".data, .endAnchor]

/-- The rule-scanning loop of `SourceVisitor.visit`: `task_class`
starts as `None` and is overwritten by every matching rule in list
order. -/
def selectTaskClass {H : Type} (source_map : List (List ReTok × H))
    (candidate : String) : Option H :=
  source_map.foldl
    (fun task_class rule =>
      if reMatch rule.1 candidate then some rule.2 else task_class)
    none

/-- Method `SourceVisitor.visit`, observed through the candidate list it
returns: with no matching rule it is `[]`; otherwise it is the
products of the task built for the selected class (task construction
and execution are the task handler collaborator, abstracted as
`productsOf`). -/
def SourceVisitor.visit {H : Type} (source_map : List (List ReTok × H))
    (productsOf : H → String → List PyPath) (candidate : String) :
    List PyPath :=
  match selectTaskClass source_map candidate with
  | none => []
  | some task_class => productsOf task_class candidate

theorem selectTaskClass_foldl_acc {H : Type} (candidate : String)
    (rules : List (List ReTok × H)) (acc : Option H)
    (h : ∀ q ∈ rules, reMatch q.1 candidate = false) :
    rules.foldl
      (fun task_class rule =>
        if reMatch rule.1 candidate then some rule.2 else task_class)
      acc = acc := by
  induction rules generalizing acc with
  | nil => rfl
  | cons r rs ih =>
    have hr : reMatch r.1 candidate = false := h r (List.mem_cons_self r rs)
    simp only [List.foldl_cons, hr, Bool.false_eq_true, if_false]
    exact ih acc (fun q hq => h q (List.mem_cons_of_mem r hq))

theorem selectTaskClass_last_match {H : Type} (candidate : String)
    (rules₁ rules₂ : List (List ReTok × H)) (p : List ReTok) (h : H)
    (hp : reMatch p candidate = true)
    (hlast : ∀ q ∈ rules₂, reMatch q.1 candidate = false) :
    selectTaskClass (rules₁ ++ (p, h) :: rules₂) candidate = some h := by
  unfold selectTaskClass
  rw [List.foldl_append, List.foldl_cons]
  simp only [hp, if_true]
  exact selectTaskClass_foldl_acc candidate rules₂ (some h) hlast

/-- C2: the dispatcher folds over the whole rule list in order and the
last matching rule determines the handler; with the rules
`[(".*\.c$", A), (".*special\.c$", B)]` the file `special.c` selects
`B` and `other.c` selects `A`; and a candidate matching no rule yields
zero product candidates. -/
theorem dispatch_last_match_wins {H : Type} (A B : H)
    (productsOf : H → String → List PyPath)
    (rules rules₁ rules₂ : List (List ReTok × H)) (p : List ReTok)
    (h : H) (candidate : String)
    (hp : reMatch p candidate = true)
    (hlast : ∀ q ∈ rules₂, reMatch q.1 candidate = false)
    (hnone : selectTaskClass rules candidate = none) :
    selectTaskClass (rules₁ ++ (p, h) :: rules₂) candidate = some h
    ∧ selectTaskClass [(patAnyC, A), (patSpecialC, B)] "special.c" = some B
    ∧ selectTaskClass [(patAnyC, A), (patSpecialC, B)] "other.c" = some A
    ∧ SourceVisitor.visit rules productsOf candidate = [] := by
  have m1 : reMatch patAnyC "special.c" = true := by decide
  have m2 : reMatch patSpecialC "special.c" = true := by decide
  have m3 : reMatch patAnyC "other.c" = true := by decide
  have m4 : reMatch patSpecialC "other.c" = false := by decide
  refine ⟨selectTaskClass_last_match candidate rules₁ rules₂ p h hp hlast,
    ?_, ?_, ?_⟩
  · simp [selectTaskClass, m1, m2]
  · simp [selectTaskClass, m3, m4]
  · simp [SourceVisitor.visit, hnone]

/-- C2 witness: concrete rules, candidates and products function. -/
theorem dispatch_last_match_wins_witness :
    reMatch patSpecialC "special.c" = true
    ∧ (∀ q ∈ ([] : List (List ReTok × String)), reMatch q.1 "special.c" = false)
    ∧ selectTaskClass ([] : List (List ReTok × String)) "special.c" = none
    ∧ selectTaskClass [(patAnyC, "A"), (patSpecialC, "B")] "special.c" = some "B"
    ∧ SourceVisitor.visit ([] : List (List ReTok × String))
        (fun _ _ => []) "special.c" = [] := by
  refine ⟨by decide, by simp, rfl, ?_, ?_⟩
  · exact (dispatch_last_match_wins "A" "B" (fun _ _ => [])
      [] [(patAnyC, "A")] [] patSpecialC "B" "special.c"
      (by decide) (by simp) rfl).2.1
  · exact (dispatch_last_match_wins "A" "B" (fun _ _ => [])
      [] [(patAnyC, "A")] [] patSpecialC "B" "special.c"
      (by decide) (by simp) rfl).2.2.2

/-! ## The marker injector (`CPragmaInjector.line_by_line`)

The directive regex is `^\s*#include\s+(\S+)` (`re.match`): optional
leading whitespace, the literal `#include`, at least one whitespace
character, then the maximal nonempty run of non-whitespace characters
as the captured target.  Depending on the first character of the
target the original line is bracketed by a Sys or Usr marker pair; any
other first character raises `TaskException`, which ends the
generator: the result is the lines yielded so far plus the error. -/

/-- The Python `\s` character class. -/
def pyIsSpace (c : Char) : Bool :=
  c = ' ' || c = '\t' || c = '\n' || c = '\r' || c = '\x0b' || c = '\x0c'

/-- Match `^\s*#include\s+(\S+)` against a line, returning the capture
group. -/
def parseIncludeL (cs : List Char) : Option (List Char) :=
  let cs1 := cs.dropWhile pyIsSpace
  if "#include".data.isPrefixOf cs1 then
    let cs2 := cs1.drop 8
    match cs2 with
    | [] => none
    | c :: _ =>
      if pyIsSpace c then
        let group := (cs2.dropWhile pyIsSpace).takeWhile (fun d => ¬ pyIsSpace d)
        if group.isEmpty then none else some group
      else none
  else none

def parseInclude (line : String) : Option String :=
  (parseIncludeL line.data).map (fun cs => ⟨cs⟩)

def sysStartMarker : String := "#pragma FAB SysIncludeStart\n"
def sysEndMarker : String := "#pragma FAB SysIncludeEnd\n"
def usrStartMarker : String := "#pragma FAB UsrIncludeStart\n"
def usrEndMarker : String := "#pragma FAB UsrIncludeEnd\n"

def badIncludeMsg : String := "Found badly formatted #include"

/-- Method `CPragmaInjector.line_by_line`, as the list of lines the
generator yields before completing or raising, paired with the raised
exception message, if any. -/
def CPragmaInjector.line_by_line : List String → List String × Option String
  | [] => ([], none)
  | line :: rest =>
    match parseInclude line with
    | none =>
      let r := CPragmaInjector.line_by_line rest
      (line :: r.1, r.2)
    | some inc =>
      if inc.data.head? = some '<' then
        let r := CPragmaInjector.line_by_line rest
        (sysStartMarker :: line :: sysEndMarker :: r.1, r.2)
      else if inc.data.head? = some '"' ∨ inc.data.head? = some '\'' then
        let r := CPragmaInjector.line_by_line rest
        (usrStartMarker :: line :: usrEndMarker :: r.1, r.2)
      else
        ([], some badIncludeMsg)

/-- A line is well formed when it either is no directive or its target
starts with one of the three recognised delimiter characters. -/
def wellFormedLine (line : String) : Bool :=
  match parseInclude line with
  | none => true
  | some inc =>
    inc.data.head? = some '<' || inc.data.head? = some '"'
      || inc.data.head? = some '\''

/-- The three lines (or one line) that `line_by_line` emits for one
input line. -/
def expandLine (line : String) : List String :=
  match parseInclude line with
  | none => [line]
  | some inc =>
    if inc.data.head? = some '<' then
      [sysStartMarker, line, sysEndMarker]
    else if inc.data.head? = some '"' ∨ inc.data.head? = some '\'' then
      [usrStartMarker, line, usrEndMarker]
    else
      []

def isDirective (line : String) : Bool := (parseInclude line).isSome

theorem line_by_line_cons (line : String) (rest : List String)
    (h : wellFormedLine line = true) :
    CPragmaInjector.line_by_line (line :: rest)
      = (expandLine line ++ (CPragmaInjector.line_by_line rest).1,
         (CPragmaInjector.line_by_line rest).2) := by
  unfold wellFormedLine at h
  cases hp : parseInclude line with
  | none => simp [CPragmaInjector.line_by_line, expandLine, hp]
  | some inc =>
    rw [hp] at h
    rcases Bool.or_eq_true_iff.mp h with h12 | hq
    · rcases Bool.or_eq_true_iff.mp h12 with h1 | h2
      · simp only [decide_eq_true_eq] at h1
        simp [CPragmaInjector.line_by_line, expandLine, hp, h1]
      · simp only [decide_eq_true_eq] at h2
        have hlt : ¬ inc.data.head? = some '<' := by rw [h2]; decide
        simp [CPragmaInjector.line_by_line, expandLine, hp, hlt, Or.inl h2]
    · simp only [decide_eq_true_eq] at hq
      have hlt : ¬ inc.data.head? = some '<' := by rw [hq]; decide
      simp [CPragmaInjector.line_by_line, expandLine, hp, hlt, Or.inr hq]

theorem line_by_line_wf (lines : List String)
    (hwf : ∀ l ∈ lines, wellFormedLine l = true) :
    CPragmaInjector.line_by_line lines = (lines.flatMap expandLine, none) := by
  induction lines with
  | nil => rfl
  | cons line rest ih =>
    have hline := hwf line (List.mem_cons_self line rest)
    have hrest := ih (fun l hl => hwf l (List.mem_cons_of_mem line hl))
    rw [line_by_line_cons line rest hline, hrest, List.flatMap_cons]

theorem expandLine_length (l : String) (hwf : wellFormedLine l = true) :
    (expandLine l).length = if isDirective l then 3 else 1 := by
  unfold expandLine isDirective
  unfold wellFormedLine at hwf
  cases hp : parseInclude l with
  | none => simp
  | some inc =>
    rw [hp] at hwf
    simp only [Option.isSome_some, if_true]
    rcases Bool.or_eq_true_iff.mp hwf with h | hq
    · rcases Bool.or_eq_true_iff.mp h with h1 | h2
      · simp only [decide_eq_true_eq] at h1
        simp [h1]
      · simp only [decide_eq_true_eq] at h2
        by_cases hlt : inc.data.head? = some '<'
        · simp [hlt]
        · simp [hlt, Or.inl h2]
    · simp only [decide_eq_true_eq] at hq
      by_cases hlt : inc.data.head? = some '<'
      · simp [hlt]
      · simp [hlt, Or.inr hq]

/-- C3: on an input whose directives are all well formed,
`line_by_line` raises nothing and yields exactly the concatenation,
over the input lines in order, of the single unmodified line for a
non-directive and of start marker / unmodified directive line / end
marker for a directive (so every non-directive line and every
directive line is emitted byte-identical to the input); consequently
the output line count is the input count plus twice the directive
count. -/
theorem injector_line_count (lines : List String)
    (hwf : ∀ l ∈ lines, wellFormedLine l = true) :
    CPragmaInjector.line_by_line lines = (lines.flatMap expandLine, none)
    ∧ (lines.flatMap expandLine).length
        = lines.length + 2 * lines.countP isDirective := by
  refine ⟨line_by_line_wf lines hwf, ?_⟩
  induction lines with
  | nil => rfl
  | cons line rest ih =>
    have hline := expandLine_length line (hwf line (List.mem_cons_self line rest))
    have hrest := ih (fun l hl => hwf l (List.mem_cons_of_mem line hl))
    rw [List.flatMap_cons, List.length_append, hrest, List.length_cons,
      List.countP_cons, hline]
    by_cases hd : isDirective line
    · simp only [hd, if_true]
      omega
    · have hd2 : isDirective line = false := by simpa using hd
      simp [hd2]
      omega

/-- C3 witness: a concrete three-line file with one system include and
one user include. -/
theorem injector_line_count_witness :
    CPragmaInjector.line_by_line
        ["int x;\n", "#include <stdio.h>\n", "#include \"b.h\"\n"]
      = (["int x;\n",
          sysStartMarker, "#include <stdio.h>\n", sysEndMarker,
          usrStartMarker, "#include \"b.h\"\n", usrEndMarker], none)
    ∧ (7 : Nat) = 3 + 2 * 2 := by
  have h := injector_line_count
    ["int x;\n", "#include <stdio.h>\n", "#include \"b.h\"\n"]
    (by decide)
  refine ⟨?_, by decide⟩
  rw [h.1]
  decide

/-! ### Provenance classification (claim C4)

The code classifies an include target by its *first character only*
(`include.startswith('<')`, `include.startswith(('"', "'"))`).  The
spec speaks of targets *delimited by* angle brackets or quotes; the
following two definitions follow the spec's words, for comparison with
the code's behaviour. -/

/-- Modelled from the spec's words: a target delimited by angle
brackets starts with `<` and ends with `>`. -/
def specDelimitedByAngles (t : String) : Bool :=
  (t.data.head? = some '<' && t.data.getLast? = some '>')
    && 2 ≤ t.data.length

/-- Modelled from the spec's words: a target delimited by single or
double quotes starts and ends with the same quote character. -/
def specDelimitedByQuotes (t : String) : Bool :=
  ((t.data.head? = some '"' && t.data.getLast? = some '"')
      || (t.data.head? = some '\'' && t.data.getLast? = some '\''))
    && 2 ≤ t.data.length

/-- C4 counterexample: the directive `#include <foo` has a target that
is delimited neither by angle brackets nor by quotes, yet the injector
does not raise a malformed-directive error: it classifies the line as
library-provided (Sys marker pair), because only the first character
of the target is inspected. -/
theorem injector_delimiter_counterexample :
    parseInclude "#include <foo\n" = some "<foo"
    ∧ specDelimitedByAngles "<foo" = false
    ∧ specDelimitedByQuotes "<foo" = false
    ∧ CPragmaInjector.line_by_line ["#include <foo\n"]
        = ([sysStartMarker, "#include <foo\n", sysEndMarker], none) := by
  exact ⟨by decide, by decide, by decide, by decide⟩

/-- C4 (amended): the injector classifies a detected directive as
library-provided exactly when the target's first character is `<` and
as project-provided exactly when its first character is `"` or `'`,
emitting the corresponding marker pair; a target starting with none of
those three characters raises the malformed-directive error
immediately: the lines yielded before it are exactly the expansions of
the preceding (well-formed) lines, and neither the offending line nor
any later line is processed. -/
theorem injector_first_char_classification
    (pre post : List String) (line inc : String)
    (hpre : ∀ x ∈ pre, wellFormedLine x = true)
    (hl : parseInclude line = some inc) :
    (inc.data.head? = some '<' →
      CPragmaInjector.line_by_line (line :: post)
        = (sysStartMarker :: line :: sysEndMarker
             :: (CPragmaInjector.line_by_line post).1,
           (CPragmaInjector.line_by_line post).2))
    ∧ (inc.data.head? = some '"' ∨ inc.data.head? = some '\'' →
      CPragmaInjector.line_by_line (line :: post)
        = (usrStartMarker :: line :: usrEndMarker
             :: (CPragmaInjector.line_by_line post).1,
           (CPragmaInjector.line_by_line post).2))
    ∧ (inc.data.head? ≠ some '<' → inc.data.head? ≠ some '"' →
        inc.data.head? ≠ some '\'' →
      CPragmaInjector.line_by_line (pre ++ line :: post)
        = (pre.flatMap expandLine, some badIncludeMsg)) := by
  refine ⟨?_, ?_, ?_⟩
  · intro h1
    simp [CPragmaInjector.line_by_line, hl, h1]
  · intro h2
    have hlt : ¬ inc.data.head? = some '<' := by
      rcases h2 with h | h <;> rw [h] <;> decide
    simp [CPragmaInjector.line_by_line, hl, hlt, h2]
  · intro h1 h2 h3
    induction pre with
    | nil =>
      simp [CPragmaInjector.line_by_line, hl, h1, h2, h3]
    | cons x xs ih =>
      have hx := hpre x (List.mem_cons_self x xs)
      have hxs := ih (fun y hy => hpre y (List.mem_cons_of_mem x hy))
      rw [List.cons_append, line_by_line_cons x (xs ++ line :: post) hx, hxs,
        List.flatMap_cons]

/-- C4 witness: a malformed directive after one good line aborts the
sequence; a system directive gets the Sys marker pair. -/
theorem injector_first_char_classification_witness :
    CPragmaInjector.line_by_line ["int x;\n", "#include foo\n", "int y;\n"]
      = (["int x;\n"], some badIncludeMsg)
    ∧ CPragmaInjector.line_by_line ["#include <a.h>\n"]
      = ([sysStartMarker, "#include <a.h>\n", sysEndMarker], none) := by
  constructor
  · have h := (injector_first_char_classification
      ["int x;\n"] ["int y;\n"] "#include foo\n" "foo"
      (by decide) (by decide)).2.2 (by decide) (by decide) (by decide)
    rw [List.singleton_append] at h
    rw [h]
    decide
  · have h := (injector_first_char_classification
      [] [] "#include <a.h>\n" "<a.h>" (by decide) (by decide)).1 (by decide)
    rw [h]
    decide

/-! ## The tree walker (`fab/source_tree.py`, `TreeDescent.descend`)

The filesystem a descent sees is embedded as a tree of entries, each
carrying its full path string; `sorted(candidate.iterdir())` sorts the
children of one directory by path.  The walker keeps a Python list
`to_visit` used as a stack: `pop()` takes the *last* element and
`extend` appends at the end.  Stacks are embedded with the top at the
end, exactly as in the source.  The candidate paths a visitor returns
re-enter the frontier as plain files.  The Python `while` loop becomes
fuel-indexed recursion (`none` = fuel exhausted); `descendAux` returns
the file paths in the order the visitor is called on them. -/

inductive FSEntry where
  | file (path : String)
  | dir (path : String) (children : List FSEntry)

def entryPath : FSEntry → String
  | .file p => p
  | .dir p _ => p

def entryLe (a b : FSEntry) : Prop := strLe (entryPath a) (entryPath b) = true

instance : DecidableRel entryLe := fun _ _ =>
  inferInstanceAs (Decidable (_ = true))

def descendAux (v : String → List String) :
    Nat → List FSEntry → Option (List String)
  | _, [] => some []
  | 0, _ :: _ => none
  | fuel + 1, s :: ss =>
    match (s :: ss).getLast? with
    | none => none
    | some (.dir _ children) =>
        descendAux v fuel
          ((s :: ss).dropLast ++ children.insertionSort entryLe)
    | some (.file p) =>
        (descendAux v fuel
            ((s :: ss).dropLast ++ (v p).map FSEntry.file)).map
          (fun visited => p :: visited)

/-- Method `TreeDescent.descend`, observed through the order in which
file candidates are offered to the visitor. -/
def descend (v : String → List String) (root : FSEntry) (fuel : Nat) :
    Option (List String) :=
  descendAux v fuel [root]

theorem descendAux_nil (v : String → List String) (fuel : Nat) :
    descendAux v fuel [] = some [] := by
  cases fuel with
  | zero => rfl
  | succ f => rfl

theorem descendAux_succ (v : String → List String) (fuel : Nat)
    (l : List FSEntry) (h : l ≠ []) :
    descendAux v (fuel + 1) l =
      match l.getLast? with
      | none => none
      | some (.dir _ children) =>
          descendAux v fuel (l.dropLast ++ children.insertionSort entryLe)
      | some (.file p) =>
          (descendAux v fuel (l.dropLast ++ (v p).map FSEntry.file)).map
            (fun visited => p :: visited) := by
  cases l with
  | nil => exact absurd rfl h
  | cons s ss => rfl

theorem descendAux_succ_dir (v : String → List String) (fuel : Nat)
    (l : List FSEntry) (name : String) (children : List FSEntry)
    (hne : l ≠ []) (h : l.getLast? = some (.dir name children)) :
    descendAux v (fuel + 1) l
      = descendAux v fuel (l.dropLast ++ children.insertionSort entryLe) := by
  rw [descendAux_succ v fuel l hne, h]

theorem descendAux_succ_file (v : String → List String) (fuel : Nat)
    (l : List FSEntry) (p : String)
    (hne : l ≠ []) (h : l.getLast? = some (.file p)) :
    descendAux v (fuel + 1) l
      = (descendAux v fuel (l.dropLast ++ (v p).map FSEntry.file)).map
          (fun visited => p :: visited) := by
  rw [descendAux_succ v fuel l hne, h]

theorem descendAux_dir_step (v : String → List String) (fuel : Nat)
    (rest : List FSEntry) (name : String) (children : List FSEntry) :
    descendAux v (fuel + 1) (rest ++ [.dir name children])
      = descendAux v fuel (rest ++ children.insertionSort entryLe) := by
  rw [descendAux_succ_dir v fuel _ name children (by simp)
    (List.getLast?_concat rest), List.dropLast_concat]

theorem descendAux_file_step (v : String → List String) (fuel : Nat)
    (rest : List FSEntry) (p : String) :
    descendAux v (fuel + 1) (rest ++ [.file p])
      = (descendAux v fuel (rest ++ (v p).map FSEntry.file)).map
          (fun visited => p :: visited) := by
  rw [descendAux_succ_file v fuel _ p (by simp)
    (List.getLast?_concat rest), List.dropLast_concat]

theorem descendAux_mono (v : String → List String) (fuel k : Nat)
    (s : List FSEntry) (out : List String)
    (h : descendAux v fuel s = some out) :
    descendAux v (fuel + k) s = some out := by
  induction fuel generalizing s out with
  | zero =>
    cases s with
    | nil =>
      cases (descendAux_nil v 0).symm.trans h
      rw [Nat.zero_add]
      exact descendAux_nil v k
    | cons a as => exact absurd h (by simp [descendAux])
  | succ fuel ih =>
    cases s with
    | nil =>
      cases (descendAux_nil v (fuel + 1)).symm.trans h
      exact descendAux_nil v (fuel + 1 + k)
    | cons a as =>
      have hne : (a :: as : List FSEntry) ≠ [] := by simp
      have hk : fuel + 1 + k = fuel + k + 1 := by omega
      cases hlast : (a :: as).getLast? with
      | none =>
        rw [descendAux_succ v fuel _ hne, hlast] at h
        exact absurd h (by simp)
      | some c =>
        cases c with
        | dir name children =>
          rw [descendAux_succ_dir v fuel _ name children hne hlast] at h
          rw [hk, descendAux_succ_dir v (fuel + k) _ name children hne hlast]
          exact ih _ _ h
        | file p =>
          rw [descendAux_succ_file v fuel _ p hne hlast] at h
          rcases Option.map_eq_some'.mp h with ⟨w, hw, hout⟩
          rw [hk, descendAux_succ_file v (fuel + k) _ p hne hlast,
            ih _ _ hw]
          simp [hout]

theorem descendAux_append (v : String → List String) (f2 : Nat) :
    ∀ (f1 : Nat) (s t : List FSEntry) (v1 v2 : List String),
      descendAux v f2 t = some v2 → descendAux v f1 s = some v1 →
      descendAux v (f1 + f2) (s ++ t) = some (v2 ++ v1) := by
  induction f2 with
  | zero =>
    intro f1 s t v1 v2 ht hs
    cases t with
    | nil =>
      cases (descendAux_nil v 0).symm.trans ht
      simpa using hs
    | cons a as => exact absurd ht (by simp [descendAux])
  | succ f2 ih =>
    intro f1 s t v1 v2 ht hs
    cases t with
    | nil =>
      cases (descendAux_nil v (f2 + 1)).symm.trans ht
      simpa using descendAux_mono v f1 (f2 + 1) s v1 hs
    | cons a as =>
      have hne : (a :: as : List FSEntry) ≠ [] := by simp
      have hne2 : s ++ a :: as ≠ [] := by simp
      have hf : f1 + (f2 + 1) = (f1 + f2) + 1 := by omega
      have hdrop : (s ++ a :: as).dropLast = s ++ (a :: as).dropLast := by
        rw [List.dropLast_append]
        simp
      cases hlast : (a :: as).getLast? with
      | none =>
        rw [descendAux_succ v f2 _ hne, hlast] at ht
        exact absurd ht (by simp)
      | some c =>
        have hlast2 : (s ++ a :: as).getLast? = some c := by
          rw [List.getLast?_append, hlast]
          rfl
        cases c with
        | dir name children =>
          rw [descendAux_succ_dir v f2 _ name children hne hlast] at ht
          rw [hf, descendAux_succ_dir v (f1 + f2) _ name children hne2 hlast2,
            hdrop, List.append_assoc]
          exact ih f1 s _ v1 v2 ht hs
        | file p =>
          rw [descendAux_succ_file v f2 _ p hne hlast] at ht
          rcases Option.map_eq_some'.mp ht with ⟨w, hw, hv2⟩
          rw [hf, descendAux_succ_file v (f1 + f2) _ p hne2 hlast2,
            hdrop, List.append_assoc, ih f1 s _ v1 w hw hs]
          rw [← hv2]
          simp

theorem descendAux_files_only (names : List String) :
    descendAux (fun _ => []) names.length (names.map FSEntry.file)
      = some names.reverse := by
  induction names using List.reverseRecOn with
  | nil => rfl
  | append_singleton ys p ih =>
    rw [List.map_append, List.map_singleton, List.length_append,
      List.length_singleton]
    rw [descendAux_file_step (fun _ => []) ys.length (ys.map FSEntry.file) p]
    simp only [List.map_nil, List.append_nil, ih, Option.map_some']
    simp

theorem files_only_map_entryPath (l : List FSEntry)
    (h : ∀ e ∈ l, ∃ q, e = FSEntry.file q) :
    l = (l.map entryPath).map FSEntry.file := by
  induction l with
  | nil => rfl
  | cons e es ih =>
    rcases h e (List.mem_cons_self e es) with ⟨q, hq⟩
    subst hq
    rw [List.map_cons, List.map_cons,
      ← ih (fun x hx => h x (List.mem_cons_of_mem _ hx))]
    rfl

/-- C1 counterexample: a directory whose (already sorted) children are
the files `r/a` and `r/b`.  The children are expanded onto the
frontier in sorted order `[r/a, r/b]`, but the frontier is popped from
the end, so the visit order is `[r/b, r/a]` — the reverse of sorted
order, refuting "directory children are visited in sorted order". -/
theorem descend_sorted_visit_counterexample :
    ([FSEntry.file "r/a", FSEntry.file "r/b"].insertionSort entryLe).map
        entryPath = ["r/a", "r/b"]
    ∧ descend (fun _ => []) (.dir "r" [.file "r/a", .file "r/b"]) 3
      = some ["r/b", "r/a"]
    ∧ (["r/b", "r/a"] : List String) ≠ ["r/a", "r/b"] := by
  exact ⟨by decide, by decide, by decide⟩

/-- C1 (amended): every directory is expanded onto the work frontier
with its children in deterministic sorted order; the frontier is a
LIFO stack popped from the end, so directory children are *visited* in
reverse sorted order; the products of a task are pushed above the
remaining pre-existing entries and hence are visited (together with
everything they produce) before any sibling below them on the stack. -/
theorem descend_order (v : String → List String) (fuel f1 f2 : Nat)
    (rest s t : List FSEntry) (name p : String) (children : List FSEntry)
    (names : List String) (v1 v2 : List String)
    (ht : descendAux v f2 t = some v2) (hs : descendAux v f1 s = some v1) :
    descendAux v (fuel + 1) (rest ++ [.dir name children])
      = descendAux v fuel (rest ++ children.insertionSort entryLe)
    ∧ descendAux v (fuel + 1) (rest ++ [.file p])
      = (descendAux v fuel (rest ++ (v p).map FSEntry.file)).map
          (fun visited => p :: visited)
    ∧ descendAux v (f1 + f2) (s ++ t) = some (v2 ++ v1)
    ∧ descend (fun _ => []) (.dir name (names.map .file)) (names.length + 1)
      = some ((names.map FSEntry.file).insertionSort entryLe
          |>.map entryPath).reverse := by
  refine ⟨descendAux_dir_step v fuel rest name children,
    descendAux_file_step v fuel rest p,
    descendAux_append v f2 f1 s t v1 v2 ht hs, ?_⟩
  unfold descend
  have h1 : ([FSEntry.dir name (names.map .file)] : List FSEntry)
      = [] ++ [FSEntry.dir name (names.map .file)] := rfl
  rw [h1, descendAux_dir_step (fun _ => []) names.length [] name
    (names.map .file), List.nil_append]
  have hperm : ((names.map FSEntry.file).insertionSort entryLe).Perm
      (names.map FSEntry.file) := List.perm_insertionSort entryLe _
  have hmem : ∀ e ∈ (names.map FSEntry.file).insertionSort entryLe,
      ∃ q, e = FSEntry.file q := by
    intro e he
    rcases List.mem_map.mp (hperm.mem_iff.mp he) with ⟨q, _, hq⟩
    exact ⟨q, hq.symm⟩
  set ns := ((names.map FSEntry.file).insertionSort entryLe).map entryPath
    with hnsdef
  have hns : (names.map FSEntry.file).insertionSort entryLe
      = ns.map FSEntry.file := files_only_map_entryPath _ hmem
  have hlen : ns.length = names.length := by
    have h2 := hperm.length_eq
    rw [hns] at h2
    simpa using h2
  rw [hns, ← hlen, descendAux_files_only ns]

/-- C1 witness: concrete stacks for the composition facts and a
concrete two-file directory. -/
theorem descend_order_witness :
    descendAux (fun _ => []) 2 ([.file "s1"] ++ [.file "t1"])
      = some (["t1"] ++ ["s1"])
    ∧ descend (fun _ => [])
        (.dir "r" (["r/a", "r/b"].map FSEntry.file)) (["r/a", "r/b"].length + 1)
      = some ["r/b", "r/a"] := by
  have h := descend_order (fun _ => []) 0 1 1 [] [.file "s1"] [.file "t1"]
    "r" "p" [.file "r/a", .file "r/b"] ["r/a", "r/b"] ["s1"] ["t1"]
    (by decide) (by decide)
  refine ⟨h.2.2.1, ?_⟩
  rw [h.2.2.2]
  decide

/-! ## `CWorkingState.depends_on`

The SQL query takes every `c_prerequisite` row of the given
definition, left-joins `c_symbol` on the prerequisite name (NULL
`found_in` when no file defines it), and orders by `p.symbol` (a
constant here) then `f.found_in` (SQLite sorts NULL first).  The
Python loop then yields a `CSymbolUnresolvedID` for NULL rows and a
`CSymbolID` otherwise. -/

/-- References yielded by `depends_on`: `CSymbolUnresolvedID` or
`CSymbolID` values. -/
inductive CSymbolRef where
  | unresolved (name : String)
  | resolved (name : String) (found_in : String)
deriving DecidableEq, Repr

/-- Left-join one prerequisite name against the `c_symbol` table. -/
def resolveOne (s : CWorkingState) (prereq : String) :
    List (String × Option String) :=
  let defs := s.c_symbol.filter (fun d => decide (d.symbol = prereq))
  if defs.isEmpty then [(prereq, none)]
  else defs.map (fun d => (prereq, some d.found_in))

/-- The joined row set of the `depends_on` query, before ORDER BY. -/
def dependsOnRowsUnsorted (s : CWorkingState) (name file : String) :
    List (String × Option String) :=
  (s.c_prerequisite.filter
      (fun r => decide (r.symbol = name ∧ r.found_in = file))).flatMap
    (fun r => resolveOne s r.prerequisite)

/-- ORDER BY `f.found_in` with NULL first (the `p.symbol` key is the
constant `name` on every row). -/
def depRowLe (a b : String × Option String) : Prop :=
  match a.2, b.2 with
  | none, _ => True
  | some _, none => False
  | some x, some y => strLe x y = true

instance : DecidableRel depRowLe := fun a b => by
  unfold depRowLe
  cases a.2 <;> cases b.2 <;> infer_instance

def dependsOnRows (s : CWorkingState) (name file : String) :
    List (String × Option String) :=
  (dependsOnRowsUnsorted s name file).insertionSort depRowLe

def rowToRef : String × Option String → CSymbolRef
  | (n, none) => .unresolved n
  | (n, some f) => .resolved n f

/-- Method `CWorkingState.depends_on`, as the list of symbol
references the generator yields. -/
def CWorkingState.depends_on (s : CWorkingState) (name file : String) :
    List CSymbolRef :=
  (dependsOnRows s name file).map rowToRef

theorem mem_resolveOne_none (s : CWorkingState) (q p : String) :
    ((p, (none : Option String)) ∈ resolveOne s q)
      ↔ (q = p ∧ ∀ d ∈ s.c_symbol, d.symbol ≠ p) := by
  unfold resolveOne
  simp only [List.isEmpty_iff]
  by_cases hfe : s.c_symbol.filter (fun d => decide (d.symbol = q)) = []
  · rw [if_pos hfe]
    rw [List.filter_eq_nil_iff] at hfe
    constructor
    · intro hm
      have h := List.mem_singleton.mp hm
      injection h with h1 _
      subst h1
      refine ⟨rfl, fun d hd => ?_⟩
      simpa using hfe d hd
    · rintro ⟨hq, _⟩
      subst hq
      exact List.mem_singleton.mpr rfl
  · rw [if_neg hfe]
    constructor
    · intro hm
      rcases List.mem_map.mp hm with ⟨d, _, hd2⟩
      cases hd2
    · rintro ⟨hq, hall⟩
      subst hq
      exfalso
      apply hfe
      rw [List.filter_eq_nil_iff]
      intro d hd
      simpa using hall d hd

theorem mem_resolveOne_some (s : CWorkingState) (q p f2 : String) :
    ((p, some f2) ∈ resolveOne s q)
      ↔ (q = p ∧ (⟨p, f2⟩ : SymbolRow) ∈ s.c_symbol) := by
  unfold resolveOne
  simp only [List.isEmpty_iff]
  by_cases hfe : s.c_symbol.filter (fun d => decide (d.symbol = q)) = []
  · rw [if_pos hfe]
    rw [List.filter_eq_nil_iff] at hfe
    constructor
    · intro hm
      cases List.mem_singleton.mp hm
    · rintro ⟨hq, hmem⟩
      subst hq
      have h2 := hfe _ hmem
      simp at h2
  · rw [if_neg hfe]
    constructor
    · intro hm
      rcases List.mem_map.mp hm with ⟨d, hd, hd2⟩
      rcases List.mem_filter.mp hd with ⟨hdmem, hdsym⟩
      simp only [decide_eq_true_eq] at hdsym
      injection hd2 with h1 h2
      injection h2 with h2
      constructor
      · exact h1
      · have hde : d = (⟨p, f2⟩ : SymbolRow) := by
          cases d with
          | mk ds df =>
            simp only at hdsym h2
            rw [SymbolRow.mk.injEq]
            exact ⟨hdsym.trans h1, h2⟩
        rw [← hde]
        exact hdmem
    · rintro ⟨hq, hmem⟩
      refine List.mem_map.mpr ⟨⟨q, f2⟩, ?_, by rw [hq]⟩
      refine List.mem_filter.mpr ⟨?_, by simp⟩
      rw [hq]
      exact hmem

/-- C7: for the definition `(name, file)`, `depends_on` yields an
Unresolved Symbol named `p` exactly when `p` is a recorded
prerequisite of that definition and no file in the store defines `p`,
and yields a Resolved Symbol `(p, f2)` exactly when `p` is a recorded
prerequisite of that definition and the store records a definition of
`p` in file `f2`. -/
theorem depends_on_resolution (s : CWorkingState) (name file p f2 : String) :
    (CSymbolRef.unresolved p ∈ s.depends_on name file
      ↔ (∃ r ∈ s.c_prerequisite,
            r.symbol = name ∧ r.found_in = file ∧ r.prerequisite = p)
          ∧ ∀ d ∈ s.c_symbol, d.symbol ≠ p)
    ∧ (CSymbolRef.resolved p f2 ∈ s.depends_on name file
      ↔ (∃ r ∈ s.c_prerequisite,
            r.symbol = name ∧ r.found_in = file ∧ r.prerequisite = p)
          ∧ (⟨p, f2⟩ : SymbolRow) ∈ s.c_symbol) := by
  have hperm := List.perm_insertionSort depRowLe
    (dependsOnRowsUnsorted s name file)
  constructor
  · rw [CWorkingState.depends_on, List.mem_map]
    constructor
    · rintro ⟨r, hr, hconv⟩
      have hrow : r = (p, none) := by
        rcases r with ⟨n, fo⟩
        cases fo with
        | none =>
          injection hconv with h
          rw [h]
        | some f => cases hconv
      subst hrow
      have hmem := hperm.mem_iff.mp hr
      rcases List.mem_flatMap.mp hmem with ⟨pr, hpr, hres⟩
      rcases List.mem_filter.mp hpr with ⟨hprmem, hprcond⟩
      simp only [decide_eq_true_eq] at hprcond
      rcases (mem_resolveOne_none s pr.prerequisite p).mp hres with ⟨hq, hall⟩
      exact ⟨⟨pr, hprmem, hprcond.1, hprcond.2, hq⟩, hall⟩
    · rintro ⟨⟨r, hrmem, hrs, hrf, hrp⟩, hall⟩
      refine ⟨(p, none), ?_, rfl⟩
      apply hperm.mem_iff.mpr
      apply List.mem_flatMap.mpr
      refine ⟨r, List.mem_filter.mpr ⟨hrmem, by simp [hrs, hrf]⟩, ?_⟩
      exact (mem_resolveOne_none s r.prerequisite p).mpr ⟨hrp, hall⟩
  · rw [CWorkingState.depends_on, List.mem_map]
    constructor
    · rintro ⟨r, hr, hconv⟩
      have hrow : r = (p, some f2) := by
        rcases r with ⟨n, fo⟩
        cases fo with
        | none => cases hconv
        | some f =>
          injection hconv with h1 h2
          rw [h1, h2]
      subst hrow
      have hmem := hperm.mem_iff.mp hr
      rcases List.mem_flatMap.mp hmem with ⟨pr, hpr, hres⟩
      rcases List.mem_filter.mp hpr with ⟨hprmem, hprcond⟩
      simp only [decide_eq_true_eq] at hprcond
      rcases (mem_resolveOne_some s pr.prerequisite p f2).mp hres with ⟨hq, hdef⟩
      exact ⟨⟨pr, hprmem, hprcond.1, hprcond.2, hq⟩, hdef⟩
    · rintro ⟨⟨r, hrmem, hrs, hrf, hrp⟩, hdef⟩
      refine ⟨(p, some f2), ?_, rfl⟩
      apply hperm.mem_iff.mpr
      apply List.mem_flatMap.mpr
      refine ⟨r, List.mem_filter.mpr ⟨hrmem, by simp [hrs, hrf]⟩, ?_⟩
      exact (mem_resolveOne_some s r.prerequisite p f2).mpr ⟨hrp, hdef⟩

/-! ## Marker recovery (`CAnalyser.run`, pragma-scanning loop)

`CAnalyser.run` walks the token stream of the (marked, possibly
preprocessed) file keeping a deque of the last four tokens; whenever
the token at index 2 of the full window spells `FAB` it joins the four
spellings with spaces and, on an exact match with one of the four
pragma texts, records the `FAB` token's line in the corresponding
list.  Tokens are pairs of spelling and line. -/

structure Tok where
  spelling : String
  line : Nat
deriving DecidableEq, Repr

/-- The four line-number lists `sys_includes["start"]`,
`sys_includes["end"]`, `usr_includes["start"]`, `usr_includes["end"]`. -/
structure MarkerLines where
  sysStart : List Nat
  sysEnd : List Nat
  usrStart : List Nat
  usrEnd : List Nat
deriving DecidableEq, Repr

def MarkerLines.empty : MarkerLines := ⟨[], [], [], []⟩

def mlAppend (a b : MarkerLines) : MarkerLines :=
  ⟨a.sysStart ++ b.sysStart, a.sysEnd ++ b.sysEnd,
   a.usrStart ++ b.usrStart, a.usrEnd ++ b.usrEnd⟩

/-- The body of the token loop once the window holds four tokens:
trigger off the `FAB` identifier at window index 2, join the four
spellings, and compare with the four pragma texts. -/
def windowCheck (w : List Tok) (acc : MarkerLines) : MarkerLines :=
  match w with
  | [t0, t1, t2, t3] =>
    if t2.spelling = "FAB" then
      let line := t2.line
      let full := String.intercalate " "
        [t0.spelling, t1.spelling, t2.spelling, t3.spelling]
      if full = "# pragma FAB SysIncludeStart" then
        { acc with sysStart := acc.sysStart ++ [line] }
      else if full = "# pragma FAB SysIncludeEnd" then
        { acc with sysEnd := acc.sysEnd ++ [line] }
      else if full = "# pragma FAB UsrIncludeStart" then
        { acc with usrStart := acc.usrStart ++ [line] }
      else if full = "# pragma FAB UsrIncludeEnd" then
        { acc with usrEnd := acc.usrEnd ++ [line] }
      else acc
    else acc
  | _ => acc

/-- Append one token to the rolling window, dropping the oldest token
beyond four (`identifiers.append` / `popleft`). -/
def pushTok (w : List Tok) (t : Tok) : List Tok :=
  let w2 := w ++ [t]
  if w2.length > 4 then w2.tail else w2

/-- The token loop of `CAnalyser.run`. -/
def analyzeLoop : List Tok → List Tok → MarkerLines → MarkerLines
  | [], _, acc => acc
  | t :: ts, w, acc =>
    let w3 := pushTok w t
    if w3.length < 4 then analyzeLoop ts w3 acc
    else analyzeLoop ts w3 (windowCheck w3 acc)

/-- The marker recovery stage of `CAnalyser.run` over a token stream. -/
def CAnalyser.recoverMarkers (tokens : List Tok) : MarkerLines :=
  analyzeLoop tokens [] MarkerLines.empty

/-- Which of the four injected marker lines a line is, as the pragma
tag spelling. -/
def markerTag? (l : String) : Option String :=
  if l = sysStartMarker then some "SysIncludeStart"
  else if l = sysEndMarker then some "SysIncludeEnd"
  else if l = usrStartMarker then some "UsrIncludeStart"
  else if l = usrEndMarker then some "UsrIncludeEnd"
  else none

/-- The four tokens of one marker line. -/
def markerToks (i : Nat) (tag : String) : List Tok :=
  [⟨"#", i⟩, ⟨"pragma", i⟩, ⟨"FAB", i⟩, ⟨tag, i⟩]

/-- Modelled from the spec: the symbol parser boundary (the external
C tokenizer, `clang.cindex`, is not part of the repository source).
Each token exposes its spelling and source line; a
`#pragma FAB <tag>` marker line on line `i` tokenizes to the four
tokens `#`, `pragma`, `FAB`, `<tag>` on line `i`; the tokens of any
other line are supplied by the collaborator function `tokOf`. -/
def tokenStream (tokOf : String → Nat → List Tok) :
    Nat → List String → List Tok
  | _, [] => []
  | i, l :: ls =>
    (match markerTag? l with
     | some tag => markerToks i tag
     | none => tokOf l i) ++ tokenStream tokOf (i + 1) ls

/-- Line numbers of the four kinds of marker lines, read directly off
the marked text (the ground truth the recovery loop must reproduce). -/
def scanMarkers : Nat → List String → MarkerLines
  | _, [] => MarkerLines.empty
  | i, l :: ls =>
    let rest := scanMarkers (i + 1) ls
    if l = sysStartMarker then { rest with sysStart := i :: rest.sysStart }
    else if l = sysEndMarker then { rest with sysEnd := i :: rest.sysEnd }
    else if l = usrStartMarker then { rest with usrStart := i :: rest.usrStart }
    else if l = usrEndMarker then { rest with usrEnd := i :: rest.usrEnd }
    else rest

/-- Provenance class sequence recovered from the marked text: one
entry per start marker, `true` for library (Sys), `false` for project
(Usr). -/
def classSeq (marked : List String) : List Bool :=
  marked.filterMap (fun l =>
    if l = sysStartMarker then some true
    else if l = usrStartMarker then some false
    else none)

/-- Provenance class sequence of the original directives: `true` for
a target starting with an angle bracket, `false` for a quote. -/
def directiveClasses (lines : List String) : List Bool :=
  lines.filterMap (fun l =>
    match parseInclude l with
    | none => none
    | some inc =>
      if inc.data.head? = some '<' then some true
      else if inc.data.head? = some '"' ∨ inc.data.head? = some '\'' then
        some false
      else none)

/-- No token of the window's last position spells `FAB`. -/
def lastOk (w : List Tok) : Prop :=
  ∀ t, w.getLast? = some t → t.spelling ≠ "FAB"

theorem analyzeLoop_cons (t : Tok) (ts w : List Tok) (acc : MarkerLines) :
    analyzeLoop (t :: ts) w acc
      = if (pushTok w t).length < 4
        then analyzeLoop ts (pushTok w t) acc
        else analyzeLoop ts (pushTok w t) (windowCheck (pushTok w t) acc) :=
  rfl

theorem windowCheck_not_fab (t0 t1 t2 t3 : Tok) (acc : MarkerLines)
    (h : t2.spelling ≠ "FAB") : windowCheck [t0, t1, t2, t3] acc = acc := by
  simp [windowCheck, h]

theorem pushTok_small (w : List Tok) (t : Tok) (h : w.length ≤ 3) :
    pushTok w t = w ++ [t] := by
  unfold pushTok
  rw [if_neg]
  simp
  omega

theorem pushTok_four (a b c d t : Tok) :
    pushTok [a, b, c, d] t = [b, c, d, t] := rfl

theorem pushTok_getLast? (w : List Tok) (t : Tok) :
    (pushTok w t).getLast? = some t := by
  unfold pushTok
  by_cases h : (w ++ [t]).length > 4
  · rw [if_pos h]
    cases w with
    | nil => simp at h
    | cons a as =>
      rw [List.cons_append, List.tail_cons]
      exact List.getLast?_concat as
  · rw [if_neg h]
    exact List.getLast?_concat w

theorem pushTok_length (w : List Tok) (t : Tok) (h : w.length ≤ 4) :
    (pushTok w t).length ≤ 4 := by
  unfold pushTok
  by_cases h2 : (w ++ [t]).length > 4
  · rw [if_pos h2]
    simp at h2 ⊢
    omega
  · rw [if_neg h2]
    simp at h2 ⊢
    omega

theorem lastOk_pushTok (w : List Tok) (t : Tok) (h : t.spelling ≠ "FAB") :
    lastOk (pushTok w t) := by
  intro x hx
  rw [pushTok_getLast?] at hx
  injection hx with hx
  rw [hx] at h
  exact h

theorem analyzeLoop_cons_safe (t : Tok) (ts w : List Tok) (acc : MarkerLines)
    (hw : w.length ≤ 4) (hl : lastOk w) :
    analyzeLoop (t :: ts) w acc = analyzeLoop ts (pushTok w t) acc := by
  rw [analyzeLoop_cons]
  rcases w with _ | ⟨a, _ | ⟨b, _ | ⟨c, _ | ⟨d, tl⟩⟩⟩⟩
  · rw [if_pos (by simp [pushTok])]
  · rw [if_pos (by simp [pushTok])]
  · rw [if_pos (by simp [pushTok])]
  · have hc : c.spelling ≠ "FAB" := hl c rfl
    rw [pushTok_small [a, b, c] t (by simp)]
    rw [if_neg (by simp)]
    simp only [List.cons_append, List.nil_append]
    rw [windowCheck_not_fab a b c t acc hc]
  · cases tl with
    | nil =>
      have hd : d.spelling ≠ "FAB" := hl d rfl
      rw [pushTok_four a b c d t]
      rw [if_neg (by simp)]
      rw [windowCheck_not_fab b c d t acc hd]
    | cons e tl2 =>
      simp at hw

theorem analyzeLoop_source (toks : List Tok)
    (hno : ∀ t ∈ toks, t.spelling ≠ "FAB") :
    ∀ (rest w : List Tok) (acc : MarkerLines), w.length ≤ 4 → lastOk w →
      analyzeLoop (toks ++ rest) w acc
        = analyzeLoop rest (toks.foldl pushTok w) acc := by
  induction toks with
  | nil =>
    intro rest w acc _ _
    rfl
  | cons t ts ih =>
    intro rest w acc hw hl
    rw [List.cons_append, analyzeLoop_cons_safe t (ts ++ rest) w acc hw hl,
      List.foldl_cons]
    exact ih (fun x hx => hno x (List.mem_cons_of_mem t hx)) rest
      (pushTok w t) acc (pushTok_length w t hw)
      (lastOk_pushTok w t (hno t (List.mem_cons_self t ts)))

theorem foldl_pushTok_length (toks : List Tok) :
    ∀ w : List Tok, w.length ≤ 4 → (toks.foldl pushTok w).length ≤ 4 := by
  induction toks with
  | nil => intro w h; exact h
  | cons t ts ih =>
    intro w h
    rw [List.foldl_cons]
    exact ih (pushTok w t) (pushTok_length w t h)

theorem foldl_pushTok_lastOk (toks : List Tok)
    (hno : ∀ t ∈ toks, t.spelling ≠ "FAB") :
    ∀ w : List Tok, lastOk w → lastOk (toks.foldl pushTok w) := by
  induction toks with
  | nil => intro w h; exact h
  | cons t ts ih =>
    intro w h
    rw [List.foldl_cons]
    exact ih (fun x hx => hno x (List.mem_cons_of_mem t hx)) (pushTok w t)
      (lastOk_pushTok w t (hno t (List.mem_cons_self t ts)))

theorem pushTok_chain (w : List Tok) (hw : w.length ≤ 4) (i : Nat)
    (tag : String) :
    pushTok (pushTok (pushTok (pushTok w ⟨"#", i⟩) ⟨"pragma", i⟩)
        ⟨"FAB", i⟩) ⟨tag, i⟩
      = markerToks i tag := by
  rcases w with _ | ⟨a, _ | ⟨b, _ | ⟨c, _ | ⟨d, tl⟩⟩⟩⟩
  · rfl
  · rfl
  · rfl
  · rfl
  · cases tl with
    | nil => rfl
    | cons e tl2 =>
      simp at hw

theorem analyzeLoop_marker_block (i : Nat) (tag : String)
    (rest w : List Tok) (acc : MarkerLines)
    (hw : w.length ≤ 4) (hl : lastOk w) :
    analyzeLoop (markerToks i tag ++ rest) w acc
      = analyzeLoop rest (markerToks i tag)
          (windowCheck (markerToks i tag) acc) := by
  have e1 : markerToks i tag ++ rest
      = ⟨"#", i⟩ :: ⟨"pragma", i⟩ :: ⟨"FAB", i⟩ :: (⟨tag, i⟩ :: rest) := rfl
  rw [e1]
  rw [analyzeLoop_cons_safe _ _ w acc hw hl]
  rw [analyzeLoop_cons_safe _ _ _ acc (pushTok_length w _ hw)
    (lastOk_pushTok w _ (show ("#" : String) ≠ "FAB" from by decide))]
  rw [analyzeLoop_cons_safe _ _ _ acc
    (pushTok_length _ _ (pushTok_length w _ hw))
    (lastOk_pushTok _ _ (show ("pragma" : String) ≠ "FAB" from by decide))]
  rw [analyzeLoop_cons]
  rw [pushTok_chain w hw i tag]
  rw [if_neg (by simp [markerToks])]

theorem mlAppend_empty_right (a : MarkerLines) :
    mlAppend a MarkerLines.empty = a := by
  cases a
  simp [mlAppend, MarkerLines.empty]

theorem mlAppend_empty_left (b : MarkerLines) :
    mlAppend MarkerLines.empty b = b := by
  cases b
  simp [mlAppend, MarkerLines.empty]

theorem windowCheck_sysStart (i : Nat) (acc : MarkerLines) :
    windowCheck (markerToks i "SysIncludeStart") acc
      = { acc with sysStart := acc.sysStart ++ [i] } := rfl

theorem windowCheck_sysEnd (i : Nat) (acc : MarkerLines) :
    windowCheck (markerToks i "SysIncludeEnd") acc
      = { acc with sysEnd := acc.sysEnd ++ [i] } := rfl

theorem windowCheck_usrStart (i : Nat) (acc : MarkerLines) :
    windowCheck (markerToks i "UsrIncludeStart") acc
      = { acc with usrStart := acc.usrStart ++ [i] } := rfl

theorem windowCheck_usrEnd (i : Nat) (acc : MarkerLines) :
    windowCheck (markerToks i "UsrIncludeEnd") acc
      = { acc with usrEnd := acc.usrEnd ++ [i] } := rfl

theorem markerTag?_none (l : String) (h : markerTag? l = none) :
    l ≠ sysStartMarker ∧ l ≠ sysEndMarker ∧ l ≠ usrStartMarker
      ∧ l ≠ usrEndMarker := by
  unfold markerTag? at h
  split_ifs at h with h1 h2 h3 h4
  exact ⟨h1, h2, h3, h4⟩

theorem lastOk_markerToks (i : Nat) (tag : String) (h : tag ≠ "FAB") :
    lastOk (markerToks i tag) := by
  intro t ht
  have h0 : (markerToks i tag).getLast? = some ⟨tag, i⟩ := rfl
  rw [h0] at ht
  injection ht with ht
  rw [← ht]
  exact h

theorem analyzeLoop_stream (tokOf : String → Nat → List Tok)
    (lines : List String)
    (hno : ∀ l i, markerTag? l = none → ∀ t ∈ tokOf l i, t.spelling ≠ "FAB") :
    ∀ (i : Nat) (w : List Tok) (acc : MarkerLines),
      w.length ≤ 4 → lastOk w →
      analyzeLoop (tokenStream tokOf i lines) w acc
        = mlAppend acc (scanMarkers i lines) := by
  induction lines with
  | nil =>
    intro i w acc _ _
    cases w with
    | nil => exact (mlAppend_empty_right acc).symm
    | cons a as => exact (mlAppend_empty_right acc).symm
  | cons l ls ih =>
    intro i w acc hw hl
    rw [tokenStream]
    cases hm : markerTag? l with
    | none =>
      show analyzeLoop (tokOf l i ++ tokenStream tokOf (i + 1) ls) w acc
        = mlAppend acc (scanMarkers i (l :: ls))
      rw [analyzeLoop_source (tokOf l i) (hno l i hm) _ w acc hw hl]
      rw [ih (i + 1) ((tokOf l i).foldl pushTok w) acc
        (foldl_pushTok_length (tokOf l i) w hw)
        (foldl_pushTok_lastOk (tokOf l i) (hno l i hm) w hl)]
      rcases markerTag?_none l hm with ⟨h1, h2, h3, h4⟩
      rw [scanMarkers]
      rw [if_neg h1, if_neg h2, if_neg h3, if_neg h4]
    | some tag =>
      show analyzeLoop (markerToks i tag ++ tokenStream tokOf (i + 1) ls) w acc
        = mlAppend acc (scanMarkers i (l :: ls))
      rw [analyzeLoop_marker_block i tag _ w acc hw hl]
      unfold markerTag? at hm
      by_cases h1 : l = sysStartMarker
      · rw [if_pos h1] at hm
        injection hm with hm
        subst hm
        rw [windowCheck_sysStart i acc]
        rw [ih (i + 1) (markerToks i "SysIncludeStart") _
          (by simp [markerToks]) (lastOk_markerToks i "SysIncludeStart" (by decide))]
        rw [scanMarkers, if_pos h1]
        simp [mlAppend]
      · rw [if_neg h1] at hm
        by_cases h2 : l = sysEndMarker
        · rw [if_pos h2] at hm
          injection hm with hm
          subst hm
          rw [windowCheck_sysEnd i acc]
          rw [ih (i + 1) (markerToks i "SysIncludeEnd") _
            (by simp [markerToks]) (lastOk_markerToks i "SysIncludeEnd" (by decide))]
          rw [scanMarkers, if_neg h1, if_pos h2]
          simp [mlAppend]
        · rw [if_neg h2] at hm
          by_cases h3 : l = usrStartMarker
          · rw [if_pos h3] at hm
            injection hm with hm
            subst hm
            rw [windowCheck_usrStart i acc]
            rw [ih (i + 1) (markerToks i "UsrIncludeStart") _
              (by simp [markerToks]) (lastOk_markerToks i "UsrIncludeStart" (by decide))]
            rw [scanMarkers, if_neg h1, if_neg h2, if_pos h3]
            simp [mlAppend]
          · rw [if_neg h3] at hm
            by_cases h4 : l = usrEndMarker
            · rw [if_pos h4] at hm
              injection hm with hm
              subst hm
              rw [windowCheck_usrEnd i acc]
              rw [ih (i + 1) (markerToks i "UsrIncludeEnd") _
                (by simp [markerToks]) (lastOk_markerToks i "UsrIncludeEnd" (by decide))]
              rw [scanMarkers, if_neg h1, if_neg h2, if_neg h3, if_pos h4]
              simp [mlAppend]
            · rw [if_neg h4] at hm
              cases hm

theorem classSeq_expand (lines : List String)
    (hwf : ∀ l ∈ lines, wellFormedLine l = true)
    (hnm : ∀ l ∈ lines, markerTag? l = none) :
    classSeq (lines.flatMap expandLine) = directiveClasses lines := by
  have d1 : sysEndMarker ≠ sysStartMarker := by decide
  have d2 : sysEndMarker ≠ usrStartMarker := by decide
  have d3 : usrEndMarker ≠ sysStartMarker := by decide
  have d4 : usrEndMarker ≠ usrStartMarker := by decide
  have d5 : usrStartMarker ≠ sysStartMarker := by decide
  induction lines with
  | nil => rfl
  | cons l ls ih =>
    have hl := hwf l (List.mem_cons_self l ls)
    have hm := hnm l (List.mem_cons_self l ls)
    rcases markerTag?_none l hm with ⟨h1, _, h3, _⟩
    have hrest := ih (fun x hx => hwf x (List.mem_cons_of_mem l hx))
      (fun x hx => hnm x (List.mem_cons_of_mem l hx))
    rw [List.flatMap_cons]
    unfold classSeq at hrest ⊢
    unfold directiveClasses at hrest ⊢
    rw [List.filterMap_append, List.filterMap_cons, hrest]
    unfold wellFormedLine at hl
    unfold expandLine
    cases hp : parseInclude l with
    | none =>
      simp only [hp]
      simp [h1, h3]
    | some inc =>
      rw [hp] at hl
      simp only [hp]
      rcases Bool.or_eq_true_iff.mp hl with h12 | hq
      · rcases Bool.or_eq_true_iff.mp h12 with ha | hb
        · simp only [decide_eq_true_eq] at ha
          simp [ha, h1, h3, d1, d2]
        · simp only [decide_eq_true_eq] at hb
          have hlt : ¬ inc.data.head? = some '<' := by rw [hb]; decide
          simp [hlt, Or.inl hb, h1, h3, d3, d4, d5]
      · simp only [decide_eq_true_eq] at hq
        have hlt : ¬ inc.data.head? = some '<' := by rw [hq]; decide
        simp [hlt, Or.inr hq, h1, h3, d3, d4, d5]

/-- C8: injecting markers and recovering them through the analyzer's
sliding 4-token window keyed on the `FAB` token reproduces, for the
marked output of any input whose directives are all well formed (and
which does not itself contain marker lines, with the external
tokenizer emitting no `FAB` token for ordinary lines), exactly the
marker line positions of the marked text; in particular the sequence
of recovered provenance classes (Sys span per library-provided
directive, Usr span per project-provided directive) equals the
original classification of the directives, in order. -/
theorem marker_recovery_roundtrip (lines : List String)
    (tokOf : String → Nat → List Tok)
    (hwf : ∀ l ∈ lines, wellFormedLine l = true)
    (hnm : ∀ l ∈ lines, markerTag? l = none)
    (hno : ∀ l i, markerTag? l = none → ∀ t ∈ tokOf l i, t.spelling ≠ "FAB") :
    CAnalyser.recoverMarkers
        (tokenStream tokOf 1 (CPragmaInjector.line_by_line lines).1)
      = scanMarkers 1 (CPragmaInjector.line_by_line lines).1
    ∧ classSeq (CPragmaInjector.line_by_line lines).1
      = directiveClasses lines := by
  have hmarked : (CPragmaInjector.line_by_line lines).1
      = lines.flatMap expandLine := by
    rw [line_by_line_wf lines hwf]
  constructor
  · unfold CAnalyser.recoverMarkers
    rw [analyzeLoop_stream tokOf _ hno 1 [] MarkerLines.empty (by simp)
      (fun t ht => Option.noConfusion ht)]
    exact mlAppend_empty_left _
  · rw [hmarked]
    exact classSeq_expand lines hwf hnm

/-- C8 witness: one system and one user include, with a tokenizer that
produces no tokens for ordinary lines. -/
theorem marker_recovery_roundtrip_witness :
    CAnalyser.recoverMarkers
        (tokenStream (fun _ _ => []) 1
          (CPragmaInjector.line_by_line
            ["#include <stdio.h>\n", "#include \"b.h\"\n"]).1)
      = scanMarkers 1
          (CPragmaInjector.line_by_line
            ["#include <stdio.h>\n", "#include \"b.h\"\n"]).1
    ∧ classSeq (CPragmaInjector.line_by_line
          ["#include <stdio.h>\n", "#include \"b.h\"\n"]).1
      = directiveClasses ["#include <stdio.h>\n", "#include \"b.h\"\n"] :=
  marker_recovery_roundtrip
    ["#include <stdio.h>\n", "#include \"b.h\"\n"] (fun _ _ => [])
    (by decide) (by decide)
    (fun l i _ t ht => absurd ht (List.not_mem_nil t))

/-! ## `CWorkingState.get_symbol`

The query left-joins the definitions of one symbol name against their
prerequisite rows (NULL prerequisite when there are none) and orders
by `s.symbol, s.found_in, p.prerequisite`; since the WHERE clause
fixes `s.symbol = name`, the effective sort key is
`(found_in, prerequisite)` with NULL first, as in SQLite.  The Python
loop then groups consecutive rows with the same `(symbol, found_in)`
identity into one `CInfo` each, and raises `WorkingStateException`
when nothing was found. -/

def strLeProp (a b : String) : Prop := strLe a b = true

instance : DecidableRel strLeProp := fun _ _ =>
  inferInstanceAs (Decidable (_ = true))

instance : IsTotal String strLeProp := ⟨fun a b => strLe_total a b⟩

instance : IsTrans String strLeProp :=
  ⟨fun _ _ _ hab hbc => strLe_trans hab hbc⟩

instance : IsAntisymm String strLeProp :=
  ⟨fun _ _ hab hba => strLe_antisymm hab hba⟩

def strLt (a b : String) : Prop := strLeProp a b ∧ a ≠ b

theorem strLt_trans {a b c : String} (hab : strLt a b) (hbc : strLt b c) :
    strLt a c := by
  refine ⟨strLe_trans hab.1 hbc.1, fun he => ?_⟩
  subst he
  exact hab.2 (strLe_antisymm hab.1 hbc.1)

theorem strLt_or_total (a b : String) : strLt a b ∨ a = b ∨ strLt b a := by
  by_cases he : a = b
  · exact Or.inr (Or.inl he)
  · rcases strLe_total a b with h | h
    · exact Or.inl ⟨h, he⟩
    · exact Or.inr (Or.inr ⟨h, Ne.symm he⟩)

/-- NULL-first ordering on the nullable prerequisite column. -/
def optLeN : Option String → Option String → Prop
  | none, _ => True
  | some _, none => False
  | some a, some b => strLeProp a b

instance : DecidableRel optLeN := fun a b =>
  match a, b with
  | none, _ => .isTrue trivial
  | some _, none => .isFalse (fun h => h)
  | some x, some y => inferInstanceAs (Decidable (strLeProp x y))

theorem optLeN_total (a b : Option String) : optLeN a b ∨ optLeN b a := by
  cases a with
  | none => exact Or.inl trivial
  | some x =>
    cases b with
    | none => exact Or.inr trivial
    | some y => exact strLe_total x y

theorem optLeN_trans {a b c : Option String} (hab : optLeN a b)
    (hbc : optLeN b c) : optLeN a c := by
  cases a with
  | none => trivial
  | some x =>
    cases b with
    | none => cases hab
    | some y =>
      cases c with
      | none => cases hbc
      | some z => exact strLe_trans hab hbc

theorem optLeN_antisymm {a b : Option String} (hab : optLeN a b)
    (hba : optLeN b a) : a = b := by
  cases a with
  | none =>
    cases b with
    | none => rfl
    | some y => cases hba
  | some x =>
    cases b with
    | none => cases hab
    | some y => exact congrArg some (strLe_antisymm hab hba)

/-- One row of the `get_symbol` result set. -/
structure GsRow where
  symbol : String
  found_in : String
  prereq : Option String
deriving DecidableEq, Repr

/-- ORDER BY `s.symbol, s.found_in, p.prerequisite`. -/
def gsRowLe (a b : GsRow) : Prop :=
  strLt a.symbol b.symbol
  ∨ (a.symbol = b.symbol
      ∧ (strLt a.found_in b.found_in
          ∨ (a.found_in = b.found_in ∧ optLeN a.prereq b.prereq)))

instance : DecidableRel gsRowLe := fun a b => by
  unfold gsRowLe strLt strLeProp
  infer_instance

instance : IsTotal GsRow gsRowLe := by
  refine ⟨fun a b => ?_⟩
  rcases strLt_or_total a.symbol b.symbol with h | h | h
  · exact Or.inl (Or.inl h)
  · rcases strLt_or_total a.found_in b.found_in with h2 | h2 | h2
    · exact Or.inl (Or.inr ⟨h, Or.inl h2⟩)
    · rcases optLeN_total a.prereq b.prereq with h3 | h3
      · exact Or.inl (Or.inr ⟨h, Or.inr ⟨h2, h3⟩⟩)
      · exact Or.inr (Or.inr ⟨h.symm, Or.inr ⟨h2.symm, h3⟩⟩)
    · exact Or.inr (Or.inr ⟨h.symm, Or.inl h2⟩)
  · exact Or.inr (Or.inl h)

instance : IsTrans GsRow gsRowLe := by
  refine ⟨fun a b c hab hbc => ?_⟩
  rcases hab with h1 | ⟨e1, h1⟩
  · rcases hbc with h2 | ⟨e2, _⟩
    · exact Or.inl (strLt_trans h1 h2)
    · exact Or.inl (e2 ▸ h1)
  · rcases hbc with h2 | ⟨e2, h2⟩
    · exact Or.inl (e1 ▸ h2)
    · refine Or.inr ⟨e1.trans e2, ?_⟩
      rcases h1 with g1 | ⟨f1, g1⟩
      · rcases h2 with g2 | ⟨f2, _⟩
        · exact Or.inl (strLt_trans g1 g2)
        · exact Or.inl (f2 ▸ g1)
      · rcases h2 with g2 | ⟨f2, g2⟩
        · exact Or.inl (f1 ▸ g2)
        · exact Or.inr ⟨f1.trans f2, optLeN_trans g1 g2⟩

instance : IsAntisymm GsRow gsRowLe := by
  refine ⟨fun a b hab hba => ?_⟩
  rcases hab with h1 | ⟨e1, h1⟩
  · rcases hba with h2 | ⟨e2, _⟩
    · exact absurd (strLe_antisymm h1.1 h2.1) h1.2
    · exact absurd e2.symm h1.2
  · rcases hba with h2 | ⟨_, h2⟩
    · exact absurd e1.symm h2.2
    · rcases h1 with g1 | ⟨f1, g1⟩
      · rcases h2 with g2 | ⟨f2, _⟩
        · exact absurd (strLe_antisymm g1.1 g2.1) g1.2
        · exact absurd f2.symm g1.2
      · rcases h2 with g2 | ⟨_, g2⟩
        · exact absurd f1.symm g2.2
        · cases a
          cases b
          simp only at e1 f1 g1 g2
          subst e1
          subst f1
          rw [optLeN_antisymm g1 g2]

/-- The definition rows of one symbol name (`where s.symbol=:symbol`). -/
def defsFor (s : CWorkingState) (n : String) : List SymbolRow :=
  s.c_symbol.filter (fun d => decide (d.symbol = n))

/-- The prerequisite rows joined to one definition row. -/
def prereqRowsOf (s : CWorkingState) (d : SymbolRow) : List PrereqRow :=
  s.c_prerequisite.filter
    (fun p => decide (p.symbol = d.symbol ∧ p.found_in = d.found_in))

/-- Left join of one definition against its prerequisite rows: NULL
prerequisite when there are none. -/
def joinBlock (s : CWorkingState) (d : SymbolRow) : List GsRow :=
  let ps := prereqRowsOf s d
  if ps.isEmpty then [⟨d.symbol, d.found_in, none⟩]
  else ps.map (fun p => ⟨d.symbol, d.found_in, some p.prerequisite⟩)

/-- The row set of the `get_symbol` query before ORDER BY. -/
def leftJoinRows (s : CWorkingState) (n : String) : List GsRow :=
  (defsFor s n).flatMap (joinBlock s)

/-- The ordered row set the Python loop iterates over. -/
def gsRows (s : CWorkingState) (n : String) : List GsRow :=
  (leftJoinRows s n).insertionSort gsRowLe

/-- Embedding of a Python `CInfo`: the `CSymbolID` of the definition
and the (raw, nullable) prerequisite values accumulated by
`add_prerequisite`. -/
structure CInfo where
  name : String
  found_in : String
  depends_on : List (Option String)
deriving DecidableEq, Repr

def optInfoToList : Option CInfo → List CInfo
  | none => []
  | some i => [i]

/-- The row-grouping loop of `CWorkingState.get_symbol`. -/
def buildInfos : List GsRow → Option (String × String) → Option CInfo →
    List CInfo → List CInfo
  | [], _, info, acc => acc ++ optInfoToList info
  | r :: rs, previous_id, info, acc =>
    let symbol_id := (r.symbol, r.found_in)
    if previous_id = some symbol_id then
      buildInfos rs previous_id
        (info.map (fun i => { i with depends_on := i.depends_on ++ [r.prereq] }))
        acc
    else
      buildInfos rs (some symbol_id)
        (some ⟨r.symbol, r.found_in,
          match r.prereq with
          | some p => [some p]
          | none => []⟩)
        (acc ++ optInfoToList info)

def symbolNotFoundMsg (n : String) : String :=
  "symbol \"" ++ n ++ "\" not found in database."

/-- Method `CWorkingState.get_symbol`: run the grouping loop over the
ordered rows; raise the not-found condition on an empty result. -/
def CWorkingState.get_symbol (s : CWorkingState) (n : String) :
    Except String (List CInfo) :=
  let info_list := buildInfos (gsRows s n) none none []
  if info_list.isEmpty then .error (symbolNotFoundMsg n)
  else .ok info_list

/-! ### The grouped normal form of the ordered rows -/

/-- The prerequisite names of one definition, in sorted order. -/
def sortedPrereqNames (s : CWorkingState) (d : SymbolRow) : List String :=
  ((prereqRowsOf s d).map (fun p => p.prerequisite)).insertionSort strLeProp

/-- One definition's block of ordered rows. -/
def sortedBlock (s : CWorkingState) (d : SymbolRow) : List GsRow :=
  let qs := sortedPrereqNames s d
  if qs.isEmpty then [⟨d.symbol, d.found_in, none⟩]
  else qs.map (fun q => ⟨d.symbol, d.found_in, some q⟩)

/-- Ordering of the definition rows by file. -/
def defLe (a b : SymbolRow) : Prop := strLeProp a.found_in b.found_in

instance : DecidableRel defLe := fun a b =>
  inferInstanceAs (Decidable (strLe a.found_in b.found_in = true))

instance : IsTotal SymbolRow defLe := ⟨fun _ _ => strLe_total _ _⟩

instance : IsTrans SymbolRow defLe :=
  ⟨fun _ _ _ hab hbc => strLe_trans hab hbc⟩

def sortedDefs (s : CWorkingState) (n : String) : List SymbolRow :=
  (defsFor s n).insertionSort defLe

/-- The grouped form of the ordered row set. -/
def groupedRows (s : CWorkingState) (n : String) : List GsRow :=
  (sortedDefs s n).flatMap (sortedBlock s)

/-- The `CInfo` produced for one definition row. -/
def infoOf (s : CWorkingState) (d : SymbolRow) : CInfo :=
  ⟨d.symbol, d.found_in, (sortedPrereqNames s d).map some⟩

theorem sortedPrereqNames_perm (s : CWorkingState) (d : SymbolRow) :
    (sortedPrereqNames s d).Perm
      ((prereqRowsOf s d).map (fun p => p.prerequisite)) :=
  List.perm_insertionSort strLeProp _

theorem sortedBlock_perm (s : CWorkingState) (d : SymbolRow) :
    (sortedBlock s d).Perm (joinBlock s d) := by
  unfold sortedBlock joinBlock
  have hperm := sortedPrereqNames_perm s d
  have hlen : (sortedPrereqNames s d).length = (prereqRowsOf s d).length := by
    rw [hperm.length_eq, List.length_map]
  by_cases hq : sortedPrereqNames s d = []
  · have hp : (prereqRowsOf s d).isEmpty = true := by
      rw [List.isEmpty_iff, ← List.length_eq_zero, ← hlen, hq]
      rfl
    rw [hq]
    simp only [List.isEmpty_nil, if_true, hp]
    exact List.Perm.refl _
  · have hp : ¬ (prereqRowsOf s d).isEmpty = true := by
      rw [List.isEmpty_iff, ← List.length_eq_zero, ← hlen,
        List.length_eq_zero]
      exact hq
    rw [if_neg (by simpa [List.isEmpty_iff] using hq), if_neg hp]
    have e1 : (prereqRowsOf s d).map
        (fun p => (⟨d.symbol, d.found_in, some p.prerequisite⟩ : GsRow))
        = ((prereqRowsOf s d).map (fun p => p.prerequisite)).map
            (fun q => (⟨d.symbol, d.found_in, some q⟩ : GsRow)) := by
      rw [List.map_map]
      rfl
    rw [e1]
    exact List.Perm.map _ hperm

theorem gsRows_perm_grouped (s : CWorkingState) (n : String) :
    (gsRows s n).Perm (groupedRows s n) := by
  have h1 : (gsRows s n).Perm (leftJoinRows s n) :=
    List.perm_insertionSort gsRowLe _
  have h2 : (groupedRows s n).Perm (leftJoinRows s n) := by
    unfold groupedRows leftJoinRows
    have h3 : ((sortedDefs s n).flatMap (sortedBlock s)).Perm
        ((sortedDefs s n).flatMap (joinBlock s)) :=
      List.Perm.flatMap_left _ (fun d _ => sortedBlock_perm s d)
    have h4 : ((sortedDefs s n).flatMap (joinBlock s)).Perm
        ((defsFor s n).flatMap (joinBlock s)) :=
      List.Perm.flatMap_right _ (List.perm_insertionSort defLe _)
    exact h3.trans h4
  exact h1.trans h2.symm

theorem mem_sortedBlock (s : CWorkingState) (d : SymbolRow) (x : GsRow)
    (hx : x ∈ sortedBlock s d) :
    x.symbol = d.symbol ∧ x.found_in = d.found_in := by
  unfold sortedBlock at hx
  by_cases hq : (sortedPrereqNames s d).isEmpty = true
  · rw [if_pos hq] at hx
    rcases List.mem_singleton.mp hx with h
    rw [h]
    exact ⟨rfl, rfl⟩
  · rw [if_neg hq] at hx
    rcases List.mem_map.mp hx with ⟨q, _, hq2⟩
    rw [← hq2]
    exact ⟨rfl, rfl⟩

theorem sortedBlock_sorted (s : CWorkingState) (d : SymbolRow) :
    (sortedBlock s d).Pairwise gsRowLe := by
  unfold sortedBlock
  by_cases hq : (sortedPrereqNames s d).isEmpty = true
  · rw [if_pos hq]
    exact List.sorted_singleton _
  · rw [if_neg hq]
    rw [List.pairwise_map]
    have hs : (sortedPrereqNames s d).Pairwise strLeProp :=
      List.sorted_insertionSort strLeProp _
    exact hs.imp (fun hab => Or.inr ⟨rfl, Or.inr ⟨rfl, hab⟩⟩)

theorem groupedRows_sorted_aux (s : CWorkingState) (n : String) :
    ∀ ds : List SymbolRow,
      ds.Pairwise (fun a b => strLt a.found_in b.found_in) →
      (∀ d ∈ ds, d.symbol = n) →
      (ds.flatMap (sortedBlock s)).Pairwise gsRowLe := by
  intro ds
  induction ds with
  | nil =>
    intro _ _
    simp
  | cons d dt ih =>
    intro hp hsym
    rcases List.pairwise_cons.mp hp with ⟨hhead, htail⟩
    rw [List.flatMap_cons, List.pairwise_append]
    refine ⟨sortedBlock_sorted s d,
      ih htail (fun e he => hsym e (List.mem_cons_of_mem d he)), ?_⟩
    intro a ha b hb
    rcases mem_sortedBlock s d a ha with ⟨ha1, ha2⟩
    rcases List.mem_flatMap.mp hb with ⟨e, he, hbe⟩
    rcases mem_sortedBlock s e b hbe with ⟨hb1, hb2⟩
    refine Or.inr ⟨?_, Or.inl ?_⟩
    · rw [ha1, hb1, hsym d (List.mem_cons_self d dt),
        hsym e (List.mem_cons_of_mem d he)]
    · rw [ha2, hb2]
      exact hhead e he

theorem gsRows_eq_grouped (s : CWorkingState) (n : String)
    (hnd : (defsFor s n).Pairwise (fun a b => a.found_in ≠ b.found_in)) :
    gsRows s n = groupedRows s n := by
  have hsortedDefs : (sortedDefs s n).Pairwise defLe :=
    List.sorted_insertionSort defLe _
  have hndS : (sortedDefs s n).Pairwise (fun a b => a.found_in ≠ b.found_in) :=
    (List.Perm.pairwise_iff (fun h => h.symm)
      (List.perm_insertionSort defLe (defsFor s n))).mpr hnd
  have hstrict : (sortedDefs s n).Pairwise
      (fun a b => strLt a.found_in b.found_in) :=
    (hsortedDefs.and hndS).imp (fun h => ⟨h.1, h.2⟩)
  have hsym : ∀ d ∈ sortedDefs s n, d.symbol = n := by
    intro d hd
    have : d ∈ defsFor s n :=
      (List.perm_insertionSort defLe (defsFor s n)).mem_iff.mp hd
    rcases List.mem_filter.mp this with ⟨_, h2⟩
    simpa using h2
  exact List.eq_of_perm_of_sorted (gsRows_perm_grouped s n)
    (List.sorted_insertionSort gsRowLe _)
    (groupedRows_sorted_aux s n (sortedDefs s n) hstrict hsym)

theorem buildInfos_cons (r : GsRow) (rs : List GsRow)
    (prev : Option (String × String)) (info : Option CInfo)
    (acc : List CInfo) :
    buildInfos (r :: rs) prev info acc
      = if prev = some (r.symbol, r.found_in) then
          buildInfos rs prev
            (info.map (fun i =>
              { i with depends_on := i.depends_on ++ [r.prereq] }))
            acc
        else
          buildInfos rs (some (r.symbol, r.found_in))
            (some ⟨r.symbol, r.found_in,
              match r.prereq with
              | some p => [some p]
              | none => []⟩)
            (acc ++ optInfoToList info) := rfl

theorem buildInfos_same_id (sym fi : String) (qs : List String) :
    ∀ (rows : List GsRow) (i : CInfo) (acc : List CInfo),
      buildInfos
          ((qs.map (fun q => (⟨sym, fi, some q⟩ : GsRow))) ++ rows)
          (some (sym, fi)) (some i) acc
        = buildInfos rows (some (sym, fi))
            (some { i with depends_on := i.depends_on ++ qs.map some }) acc := by
  induction qs with
  | nil =>
    intro rows i acc
    simp only [List.map_nil, List.nil_append, List.append_nil]
  | cons q qt ih =>
    intro rows i acc
    rw [List.map_cons, List.cons_append, buildInfos_cons]
    rw [if_pos rfl]
    have e : Option.map
        (fun j => { j with depends_on :=
          j.depends_on ++ [(⟨sym, fi, some q⟩ : GsRow).prereq] }) (some i)
        = some { i with depends_on := i.depends_on ++ [some q] } := rfl
    rw [e, ih rows { i with depends_on := i.depends_on ++ [some q] } acc]
    simp only [List.map_cons, List.append_assoc, List.singleton_append]

theorem buildInfos_block (s : CWorkingState) (d : SymbolRow)
    (rows : List GsRow) (prev : Option (String × String))
    (info : Option CInfo) (acc : List CInfo)
    (hprev : prev ≠ some (d.symbol, d.found_in)) :
    buildInfos (sortedBlock s d ++ rows) prev info acc
      = buildInfos rows (some (d.symbol, d.found_in)) (some (infoOf s d))
          (acc ++ optInfoToList info) := by
  unfold sortedBlock infoOf
  cases hq : sortedPrereqNames s d with
  | nil =>
    simp only [hq, List.isEmpty_nil, if_true, List.map_nil]
    rw [List.singleton_append, buildInfos_cons, if_neg hprev]
  | cons q qt =>
    simp only [hq, List.isEmpty_cons, Bool.false_eq_true, if_false]
    rw [List.map_cons, List.cons_append, buildInfos_cons, if_neg hprev]
    rw [buildInfos_same_id d.symbol d.found_in qt rows _ _]
    simp only [List.map_cons, List.singleton_append]

theorem buildInfos_groups (s : CWorkingState) :
    ∀ (ds : List SymbolRow) (prev : Option (String × String))
      (info : Option CInfo) (acc : List CInfo),
      ds.Pairwise (fun a b => (a.symbol, a.found_in) ≠ (b.symbol, b.found_in)) →
      (∀ d ∈ ds, prev ≠ some (d.symbol, d.found_in)) →
      buildInfos (ds.flatMap (sortedBlock s)) prev info acc
        = acc ++ optInfoToList info ++ ds.map (infoOf s) := by
  intro ds
  induction ds with
  | nil =>
    intro prev info acc _ _
    simp only [List.flatMap_nil, List.map_nil, List.append_nil]
    rfl
  | cons d dt ih =>
    intro prev info acc hp hprev
    rcases List.pairwise_cons.mp hp with ⟨hhead, htail⟩
    rw [List.flatMap_cons]
    rw [buildInfos_block s d _ prev info acc
      (hprev d (List.mem_cons_self d dt))]
    rw [ih (some (d.symbol, d.found_in)) (some (infoOf s d))
      (acc ++ optInfoToList info) htail
      (fun e he h => hhead e he (by injection h))]
    simp only [optInfoToList, List.map_cons, List.append_assoc,
      List.singleton_append]

theorem get_symbol_eval (s : CWorkingState) (n : String)
    (hnd : (defsFor s n).Pairwise (fun a b => a.found_in ≠ b.found_in)) :
    s.get_symbol n
      = if (sortedDefs s n).map (infoOf s) = []
        then .error (symbolNotFoundMsg n)
        else .ok ((sortedDefs s n).map (infoOf s)) := by
  have hndS : (sortedDefs s n).Pairwise (fun a b => a.found_in ≠ b.found_in) :=
    (List.Perm.pairwise_iff (fun h => h.symm)
      (List.perm_insertionSort defLe (defsFor s n))).mpr hnd
  have hpair : (sortedDefs s n).Pairwise
      (fun a b => (a.symbol, a.found_in) ≠ (b.symbol, b.found_in)) :=
    hndS.imp (fun h12 heq => h12 (congrArg Prod.snd heq))
  unfold CWorkingState.get_symbol
  rw [gsRows_eq_grouped s n hnd]
  unfold groupedRows
  rw [buildInfos_groups s (sortedDefs s n) none none [] hpair
    (fun _ _ h => Option.noConfusion h)]
  simp only [optInfoToList, List.nil_append]
  by_cases hempty : (sortedDefs s n).map (infoOf s) = []
  · rw [if_pos hempty, if_pos (by rw [List.isEmpty_iff]; exact hempty)]
  · rw [if_neg hempty, if_neg (by rw [List.isEmpty_iff]; exact hempty)]

/-- C6: with `hnd` ruling out duplicate definition rows for the
name, `get_symbol n` raises the not-found condition exactly when no
file defines `n`; otherwise it succeeds with a nonempty list that
contains one entry per definition of `n` across all files — each entry
a real definition of `n` carrying its full (sorted) prerequisite name
list — and never returns an empty success. -/
theorem get_symbol_spec (s : CWorkingState) (n : String)
    (hnd : (defsFor s n).Pairwise (fun a b => a.found_in ≠ b.found_in)) :
    ((∀ d ∈ s.c_symbol, d.symbol ≠ n) →
        s.get_symbol n = .error (symbolNotFoundMsg n))
    ∧ ((∃ d ∈ s.c_symbol, d.symbol = n) →
        ∃ l, s.get_symbol n = .ok l ∧ l ≠ []
          ∧ (∀ i ∈ l, i.name = n
              ∧ (⟨i.name, i.found_in⟩ : SymbolRow) ∈ s.c_symbol
              ∧ i.depends_on
                  = (sortedPrereqNames s ⟨i.name, i.found_in⟩).map some)
          ∧ (∀ d ∈ s.c_symbol, d.symbol = n → infoOf s d ∈ l)) := by
  have hperm : (sortedDefs s n).Perm (defsFor s n) :=
    List.perm_insertionSort defLe (defsFor s n)
  constructor
  · intro hno
    have hdefs : defsFor s n = [] := by
      rw [defsFor, List.filter_eq_nil_iff]
      intro d hd
      simpa using hno d hd
    have hsorted : sortedDefs s n = [] := by
      rw [sortedDefs, hdefs]
      rfl
    rw [get_symbol_eval s n hnd, hsorted]
    rfl
  · rintro ⟨d0, hd0mem, hd0sym⟩
    have hd0 : d0 ∈ defsFor s n :=
      List.mem_filter.mpr ⟨hd0mem, by simp [hd0sym]⟩
    have hne : (sortedDefs s n).map (infoOf s) ≠ [] := by
      intro hmap
      have hnil : sortedDefs s n = [] := List.map_eq_nil_iff.mp hmap
      have hmem : d0 ∈ sortedDefs s n := hperm.mem_iff.mpr hd0
      rw [hnil] at hmem
      exact List.not_mem_nil d0 hmem
    refine ⟨(sortedDefs s n).map (infoOf s), ?_, hne, ?_, ?_⟩
    · rw [get_symbol_eval s n hnd, if_neg hne]
    · intro i hi
      rcases List.mem_map.mp hi with ⟨d, hd, hid⟩
      have hdf : d ∈ defsFor s n := hperm.mem_iff.mp hd
      rcases List.mem_filter.mp hdf with ⟨hdmem, hdsym⟩
      simp only [decide_eq_true_eq] at hdsym
      rw [← hid]
      exact ⟨hdsym, hdmem, rfl⟩
    · intro d hdmem hdsym
      have hdf : d ∈ defsFor s n :=
        List.mem_filter.mpr ⟨hdmem, by simp [hdsym]⟩
      exact List.mem_map_of_mem (infoOf s) (hperm.mem_iff.mpr hdf)

/-- A concrete store defining `f` in two files and `g` in one. -/
def sampleStoreGS : CWorkingState :=
  ⟨[⟨"f", "a.c"⟩, ⟨"f", "b.c"⟩, ⟨"g", "a.c"⟩], [⟨"f", "a.c", "g"⟩]⟩

/-- C6 witness: the not-found error on an undefined name, and a
nonempty success on a doubly defined name. -/
theorem get_symbol_spec_witness :
    sampleStoreGS.get_symbol "h" = .error (symbolNotFoundMsg "h")
    ∧ (∃ l, sampleStoreGS.get_symbol "f" = .ok l ∧ l ≠ []) := by
  constructor
  · exact (get_symbol_spec sampleStoreGS "h" (by decide)).1 (by decide)
  · rcases (get_symbol_spec sampleStoreGS "f" (by decide)).2
      ⟨⟨"f", "a.c"⟩, by decide, rfl⟩ with ⟨l, h1, h2, _⟩
    exact ⟨l, h1, h2⟩

end Fab
